import Mathlib

/-!
Mem_Allocator: a shallow embedding of `memalloc.c`.

The allocator keeps an intrusive singly linked chain of block headers
(`head`, `tail`) inside a region that grows and shrinks at its top through
`sbrk`.  The embedding keeps

* the header objects in a map from header address to `header_t`,
* the payload bytes in a map from address to byte,
* the program break together with the two bounds between which the platform
  lets it move,
* the global mutex as a boolean.

Machine words are natural numbers below `WORD = 2 ^ 64` (LP64); pointer and
`size_t` arithmetic is reduced modulo `WORD` where the C code can wrap.
The two `while` loops take a fuel argument; `none` means that the loop did not
finish within the fuel (or that the mutex was already held, so that the
call blocks).

The states that calls with sane sizes reach from a fresh allocator are
`Reachable`; each of them satisfies the layout invariant `Inv s l` for the chain
`l` of its registry (`reachable_inv`); the theorems about reachable states are
stated for `Reachable` states or for every state that satisfies `Inv`.  A size
is sane when
`sizeof(header_t) + size` is a positive `intptr_t`; `malloc` does not check this
sum, and the runs `wrapped`, `wrapped_twice` and `wrapped_second` show what a
size that wraps does to the registry.

The functions `malloc_counted` and `free_counted` repeat `malloc` and `free` on
a state paired with the number of acquisitions of the mutex; without the counter
they are `malloc` and `free` (`malloc_counted_erase`, `free_counted_erase`).
-/

namespace MemAlloc

/-! ## Data model -/

/-- Number of values of a machine word: `size_t` and pointers are 64 bit. -/
def WORD : Nat := 2 ^ 64

/-- The value of `sizeof(header_t)`: the union of `{size_t; unsigned; pointer}`
(24 bytes with padding) and `char[16]`. -/
def HEADER_SIZE : Nat := 24

/-- The null pointer. -/
def NULL : Nat := 0

/-- The value `(void*)-1`, which `sbrk` returns on failure. -/
def SBRK_FAILED : Nat := WORD - 1

/-- The struct `s` inside `union header`. -/
structure header_t where
  size : Nat
  is_free : Nat
  next : Nat
deriving DecidableEq, Repr

/-- Allocator state: the globals `head`, `tail`, `global_malloc_lock`, the
memory the allocator reads and writes, and the platform's program break. -/
structure State where
  /-- the global `head` -/
  head : Nat
  /-- the global `tail` -/
  tail : Nat
  /-- header objects, by the address of the header -/
  hdr : Nat → header_t
  /-- payload bytes, by address -/
  mem : Nat → Nat
  /-- current program break (the region boundary) -/
  brk : Nat
  /-- lowest break the platform accepts (start of the heap segment) -/
  base : Nat
  /-- highest break the platform accepts -/
  limit : Nat
  /-- whether `global_malloc_lock` is held -/
  lock : Bool

/-- Pointer plus byte offset, as the machine computes it. -/
def ptr_add (p n : Nat) : Nat := (p + n) % WORD

/-- The expression `header + 1`: the payload that follows a header. -/
def payload (header : Nat) : Nat := ptr_add header HEADER_SIZE

/-- The expression `(header_t*)block - 1`: the header in front of a payload. -/
def header_of (block : Nat) : Nat := (block + (WORD - HEADER_SIZE)) % WORD

/-- Assignment `p->s.is_free = v`. -/
def set_is_free (hdr : Nat → header_t) (p v : Nat) : Nat → header_t :=
  fun a => if a = p then { hdr a with is_free := v } else hdr a

/-- Assignment `p->s.next = v`. -/
def set_next (hdr : Nat → header_t) (p v : Nat) : Nat → header_t :=
  fun a => if a = p then { hdr a with next := v } else hdr a

/-- Assignment `p->s.size = v`. -/
def set_size (hdr : Nat → header_t) (p v : Nat) : Nat → header_t :=
  fun a => if a = p then { hdr a with size := v } else hdr a

/-- The call `pthread_mutex_lock(&global_malloc_lock)`: blocks (`none`) when
the mutex is already held. -/
def pthread_mutex_lock (s : State) : Option State :=
  if s.lock then none else some { s with lock := true }

/-- The call `pthread_mutex_unlock(&global_malloc_lock)`. -/
def pthread_mutex_unlock (s : State) : State := { s with lock := false }

/-- Whether the platform refuses to move the break by the signed value of the
word `increment`: a positive move past `limit`, or a negative move below
`base`. -/
def sbrk_denied (s : State) (increment : Nat) : Bool :=
  if increment = 0 then false
  else if increment < 2 ^ 63 then decide (s.limit < s.brk + increment)
  else decide (s.brk < s.base + (WORD - increment))

/-- Modelled from the spec: the platform primitive `sbrk`, which is not part of
the repository.  It takes a signed byte delta (here the word `increment`,
read in two's complement), returns the prior boundary, or the failure
indicator `(void*)-1` without altering anything when the platform denies the
move. -/
def sbrk (s : State) (increment : Nat) : Nat × State :=
  if sbrk_denied s increment then (SBRK_FAILED, s)
  else if increment < 2 ^ 63 then (s.brk, { s with brk := s.brk + increment })
  else (s.brk, { s with brk := s.brk - (WORD - increment) })

/-- The library call `memset(p, c, n)` on the payload bytes. -/
def memset (mem : Nat → Nat) (p c n : Nat) : Nat → Nat :=
  fun a => if p ≤ a ∧ a < p + n then c else mem a

/-- The library call `memcpy(dst, src, n)` on the payload bytes. -/
def memcpy (mem : Nat → Nat) (dst src n : Nat) : Nat → Nat :=
  fun a => if dst ≤ a ∧ a < dst + n then mem (src + (a - dst)) else mem a

/-! ## The operations of `memalloc.c` -/

/-- The `while (curr)` loop of `get_free_block`. -/
def get_free_block_loop : Nat → (Nat → header_t) → Nat → Nat → Option Nat
  | 0, _, _, _ => none
  | fuel + 1, hdr, curr, size =>
    if curr = NULL then some NULL
    else if (hdr curr).is_free ≠ 0 ∧ (hdr curr).size ≥ size then some curr
    else get_free_block_loop fuel hdr (hdr curr).next size

/-- The function `get_free_block`: retrieves the first free block. -/
def get_free_block (fuel : Nat) (s : State) (size : Nat) : Option Nat :=
  get_free_block_loop fuel s.hdr s.head size

/-- The function `malloc`. -/
def malloc (fuel : Nat) (s : State) (size : Nat) : Option (Nat × State) :=
  if size = 0 then some (NULL, s)
  else
    match pthread_mutex_lock s with
    | none => none
    | some s1 =>
      match get_free_block fuel s1 size with
      | none => none
      | some header =>
        if header ≠ NULL then
          let s2 := { s1 with hdr := set_is_free s1.hdr header 0 }
          some (payload header, pthread_mutex_unlock s2)
        else
          let total_size := (HEADER_SIZE + size) % WORD
          let r := sbrk s1 total_size
          let block := r.1
          let s2 := r.2
          if block = SBRK_FAILED then some (NULL, pthread_mutex_unlock s2)
          else
            let header := block
            let h1 := set_size s2.hdr header size
            let h2 := set_is_free h1 header 0
            let h3 := set_next h2 header NULL
            let head1 := if s2.head = NULL then header else s2.head
            let h4 := if s2.tail ≠ NULL then set_next h3 s2.tail header else h3
            let s3 := { s2 with hdr := h4, head := head1, tail := header }
            some (payload header, pthread_mutex_unlock s3)

/-- The `while (tmp)` loop of `free`, on the header map, `tail` and `tmp`. -/
def free_loop : Nat → (Nat → header_t) → Nat → Nat → Option ((Nat → header_t) × Nat)
  | 0, _, _, _ => none
  | fuel + 1, hdr, tail, tmp =>
    if tmp = NULL then some (hdr, tail)
    else if (hdr tmp).next = tail then
      free_loop fuel (set_next hdr tmp NULL) tmp ((set_next hdr tmp NULL) tmp).next
    else free_loop fuel hdr tail (hdr tmp).next

/-- The unlinking of the tail in `free`: the `if (head == tail)` statement. -/
def free_unlink (fuel : Nat) (s : State) : Option State :=
  if s.head = s.tail then some { s with head := NULL, tail := NULL }
  else
    match free_loop fuel s.hdr s.tail s.head with
    | none => none
    | some r => some { s with hdr := r.1, tail := r.2 }

/-- The function `free`. -/
def free (fuel : Nat) (s : State) (block : Nat) : Option State :=
  if block = NULL then some s
  else
    match pthread_mutex_lock s with
    | none => none
    | some s1 =>
      let header := header_of block
      let programbreak := (sbrk s1 0).1
      let s2 := (sbrk s1 0).2
      if ptr_add block (s2.hdr header).size = programbreak then
        match free_unlink fuel s2 with
        | none => none
        | some s3 =>
          let s4 := (sbrk s3 ((WORD + WORD - HEADER_SIZE - (s3.hdr header).size) % WORD)).2
          some (pthread_mutex_unlock s4)
      else
        some (pthread_mutex_unlock { s2 with hdr := set_is_free s2.hdr header 1 })

/-- The function `calloc`. -/
def calloc (fuel : Nat) (s : State) (num nsize : Nat) : Option (Nat × State) :=
  if num = 0 ∨ nsize = 0 then some (NULL, s)
  else
    let size := (num * nsize) % WORD
    if nsize ≠ size / num then some (NULL, s)
    else
      match malloc fuel s size with
      | none => none
      | some r =>
        if r.1 = NULL then some (NULL, r.2)
        else some (r.1, { r.2 with mem := memset r.2.mem r.1 0 size })

/-- The function `realloc`. -/
def realloc (fuel : Nat) (s : State) (block size : Nat) : Option (Nat × State) :=
  if block = NULL ∨ size = 0 then malloc fuel s size
  else
    let header := header_of block
    if (s.hdr header).size ≥ size then some (block, s)
    else
      match malloc fuel s size with
      | none => none
      | some r =>
        if r.1 ≠ NULL then
          let s2 := { r.2 with mem := memcpy r.2.mem r.1 block (r.2.hdr header).size }
          match free fuel s2 block with
          | none => none
          | some s3 => some (r.1, s3)
        else some (r.1, r.2)

/-- The header map after `malloc` has initialised a new header at `p` and
appended it behind `tail`. -/
def appended (hdr : Nat → header_t) (tail p size : Nat) : Nat → header_t :=
  if tail ≠ NULL then
    set_next (set_next (set_is_free (set_size hdr p size) p 0) p NULL) tail p
  else set_next (set_is_free (set_size hdr p size) p 0) p NULL

/-- The registry state after `free` has unlinked the tail of a chain whose
other headers are `pre`: empty when `pre` is empty, otherwise the last header
of `pre` is the new tail and its link is cleared. -/
def unlinked (s : State) (pre : List Nat) : State :=
  if pre = [] then { s with head := NULL, tail := NULL }
  else { s with hdr := set_next s.hdr (pre.getLastD NULL) NULL, tail := pre.getLastD NULL }

/-- The signed value (`intptr_t`, two's complement) of a word, as `sbrk` reads
its argument. -/
def intptr (x : Nat) : Int := if x < 2 ^ 63 then (x : Int) else (x : Int) - (WORD : Int)

/-! ## Test states -/

/-- An empty allocator: no blocks, break at `4096`, room up to `8192`. -/
def init : State :=
  { head := NULL, tail := NULL, hdr := fun _ => ⟨0, 0, 0⟩, mem := fun _ => 7,
    brk := 4096, base := 4096, limit := 8192, lock := false }

/-- The state of a result, `init` when the call did not return. -/
def stateOf (r : Option (Nat × State)) : State :=
  match r with
  | some x => x.2
  | none => init

/-- The pointer of a result, `none` when the call did not return. -/
def ptrOf (r : Option (Nat × State)) : Option Nat := r.map Prod.fst

/-- The state of a result of `free`, `init` when the call did not return. -/
def freedState (r : Option State) : State :=
  match r with
  | some x => x
  | none => init

/-- The allocator after `malloc(8)` on `init`: one block, header at `4096`,
payload at `4120`. -/
def one_block : State := stateOf (malloc 5 init 8)

/-- The allocator after `malloc(8)` and `malloc(16)` on `init`: headers at
`4096` and `4128`, payloads at `4120` and `4152`. -/
def two_blocks : State := stateOf (malloc 5 one_block 16)

/-- The state `two_blocks` after `free` of the first payload: the block at
`4096` is free, the block at `4128` is in use. -/
def first_freed : State := freedState (free 5 two_blocks 4120)

/-- The state `one_block` after `free` of its only payload. -/
def top_freed : State := freedState (free 5 one_block 4120)

/-- An empty allocator on a platform that has no room to grow. -/
def no_room : State :=
  { head := NULL, tail := NULL, hdr := fun _ => ⟨0, 0, 0⟩, mem := fun _ => 7,
    brk := 4096, base := 4096, limit := 4100, lock := false }

/-- An allocator whose platform has room for exactly one block of `8` bytes. -/
def tight : State :=
  { head := NULL, tail := NULL, hdr := fun _ => ⟨0, 0, 0⟩, mem := fun _ => 7,
    brk := 4096, base := 4096, limit := 4128, lock := false }

/-- The state `tight` after `malloc(8)`: one block in use, no room left. -/
def tight_block : State := stateOf (malloc 5 tight 8)

/-- The allocator after `malloc(2^64 - 24)` on `init`. -/
def wrapped : State := stateOf (malloc 5 init (WORD - 24))

/-- The allocator after `malloc(2^64 - 24)` and `malloc(8)` on `init`. -/
def wrapped_twice : State := stateOf (malloc 5 wrapped 8)

/-- The allocator after `malloc(8)` and `malloc(2^64 - 24)` on `init`. -/
def wrapped_second : State := stateOf (malloc 5 one_block (WORD - 24))

/-- The state `wrapped_second` after `free` of the first payload `4120`. -/
def wrapped_second_freed : State := freedState (free 5 wrapped_second 4120)

/-- The allocator after `malloc(8)`, `malloc(16)` and `malloc(2^64 - 24)` on
`init`. -/
def wrapped_third : State := stateOf (malloc 5 two_blocks (WORD - 24))

/-- The state `wrapped_third` after `free` of the second payload `4152`. -/
def wrapped_third_freed : State := freedState (free 5 wrapped_third 4152)

/-- The state `wrapped_second` after `malloc(2^64 - 8)`, the inner call of
`realloc(4152, 2^64 - 8)`. -/
def wrapped_regrown : State := stateOf (malloc 5 wrapped_second (WORD - 8))

/-- The allocator after `malloc(8)`, `malloc(8)`, `free(4120)`, `free(4152)` on
`init`: one free block at `4096`, the break at `4128`. -/
def hole : State :=
  freedState (free 5 (freedState (free 5 (stateOf (malloc 5 one_block 8)) 4120)) 4152)

/-- The state `hole` after `malloc(2^64 - 24)`. -/
def hole_wrapped : State := stateOf (malloc 5 hole (WORD - 24))

/-- The state `hole_wrapped` after `malloc(8)`, which reuses the block at
`4096`. -/
def hole_reused : State := stateOf (malloc 5 hole_wrapped 8)

/-- The allocator after `malloc(100)`, `malloc(8)`, `free(4120)` and
`malloc(2^64 - 24)` on `init`: a free block at `4096`, a live block at `4220`
(payload `4244`), and a header at the break `4252`. -/
def gap_wrapped : State :=
  stateOf (malloc 5
    (freedState (free 5 (stateOf (malloc 5 (stateOf (malloc 5 init 100)) 8)) 4120))
    (WORD - 24))

/-! ## Counting the acquisitions of the mutex -/

/-- The call `pthread_mutex_lock` on a state paired with the number of
acquisitions of the mutex so far. -/
def lock_counted (c : State × Nat) : Option (State × Nat) :=
  match pthread_mutex_lock c.1 with
  | none => none
  | some s1 => some (s1, c.2 + 1)

/-- The function `malloc`, statement by statement as in `malloc`, on a state
paired with the number of acquisitions of the mutex. -/
def malloc_counted (fuel : Nat) (c : State × Nat) (size : Nat) :
    Option (Nat × (State × Nat)) :=
  if size = 0 then some (NULL, c)
  else
    match lock_counted c with
    | none => none
    | some c1 =>
      match get_free_block fuel c1.1 size with
      | none => none
      | some header =>
        if header ≠ NULL then
          let s2 := { c1.1 with hdr := set_is_free c1.1.hdr header 0 }
          some (payload header, (pthread_mutex_unlock s2, c1.2))
        else
          let total_size := (HEADER_SIZE + size) % WORD
          let r := sbrk c1.1 total_size
          let block := r.1
          let s2 := r.2
          if block = SBRK_FAILED then some (NULL, (pthread_mutex_unlock s2, c1.2))
          else
            let header := block
            let h1 := set_size s2.hdr header size
            let h2 := set_is_free h1 header 0
            let h3 := set_next h2 header NULL
            let head1 := if s2.head = NULL then header else s2.head
            let h4 := if s2.tail ≠ NULL then set_next h3 s2.tail header else h3
            let s3 := { s2 with hdr := h4, head := head1, tail := header }
            some (payload header, (pthread_mutex_unlock s3, c1.2))

/-- The function `free`, statement by statement as in `free`, on a state paired
with the number of acquisitions of the mutex. -/
def free_counted (fuel : Nat) (c : State × Nat) (block : Nat) : Option (State × Nat) :=
  if block = NULL then some c
  else
    match lock_counted c with
    | none => none
    | some c1 =>
      let header := header_of block
      let programbreak := (sbrk c1.1 0).1
      let s2 := (sbrk c1.1 0).2
      if ptr_add block (s2.hdr header).size = programbreak then
        match free_unlink fuel s2 with
        | none => none
        | some s3 =>
          let s4 := (sbrk s3 ((WORD + WORD - HEADER_SIZE - (s3.hdr header).size) % WORD)).2
          some (pthread_mutex_unlock s4, c1.2)
      else
        some (pthread_mutex_unlock { s2 with hdr := set_is_free s2.hdr header 1 }, c1.2)

/-! ## Well-formed registries -/

/-- The chain that starts at `p`: following `next` visits exactly the headers
`l`, none of them null, and then reaches `NULL`. -/
def Chain (hdr : Nat → header_t) : Nat → List Nat → Prop
  | p, [] => p = NULL
  | p, a :: l => p = a ∧ a ≠ NULL ∧ Chain hdr (hdr a).next l

/-- Address order: the blocks `l` tile the bytes from `a` to `e`, each header
followed by its payload and then by the next header. -/
def Contig (hdr : Nat → header_t) : Nat → List Nat → Nat → Prop
  | a, [], e => a = e
  | a, b :: l, e => b = a ∧ Contig hdr (a + HEADER_SIZE + (hdr a).size) l e

/-- Decision procedure for `Chain`. -/
def Chain.dec (hdr : Nat → header_t) : (p : Nat) → (l : List Nat) → Decidable (Chain hdr p l)
  | p, [] => inferInstanceAs (Decidable (p = NULL))
  | p, a :: l =>
    have := Chain.dec hdr (hdr a).next l
    inferInstanceAs (Decidable (p = a ∧ a ≠ NULL ∧ Chain hdr (hdr a).next l))

instance (hdr : Nat → header_t) (p : Nat) (l : List Nat) : Decidable (Chain hdr p l) :=
  Chain.dec hdr p l

/-- Decision procedure for `Contig`. -/
def Contig.dec (hdr : Nat → header_t) : (a : Nat) → (l : List Nat) → (e : Nat) →
    Decidable (Contig hdr a l e)
  | a, [], e => inferInstanceAs (Decidable (a = e))
  | a, b :: l, e =>
    have := Contig.dec hdr (a + HEADER_SIZE + (hdr a).size) l e
    inferInstanceAs (Decidable (b = a ∧ Contig hdr (a + HEADER_SIZE + (hdr a).size) l e))

instance (hdr : Nat → header_t) (a : Nat) (l : List Nat) (e : Nat) :
    Decidable (Contig hdr a l e) :=
  Contig.dec hdr a l e

/-- The registry of `s` is the chain `l` and no call is in progress: `head`
starts the chain, `tail` is its last header (`NULL` for the empty chain), the
mutex is not held. -/
def Registry (s : State) (l : List Nat) : Prop :=
  Chain s.hdr s.head l ∧ s.tail = l.getLastD NULL ∧ s.lock = false

instance (s : State) (l : List Nat) : Decidable (Registry s l) := by
  unfold Registry; infer_instance

/-- The allocator invariant: the registry is the chain `l`, laid out in address
order from the region base to the program break, and the heap segment lies in
the lower half of the address space below `limit`. -/
def Inv (s : State) (l : List Nat) : Prop :=
  Registry s l ∧ Contig s.hdr s.base l s.brk ∧ 0 < s.base ∧ s.brk ≤ s.limit ∧ s.limit < 2 ^ 63

instance (s : State) (l : List Nat) : Decidable (Inv s l) := by
  unfold Inv; infer_instance

/-! ## Reachable states -/

/-- An allocator before its first call: no blocks, the break at the start of the
heap segment, which lies in the lower half of the address space, the mutex not
held. -/
def Fresh (s : State) : Prop :=
  s.head = NULL ∧ s.tail = NULL ∧ s.brk = s.base ∧ 0 < s.base ∧ s.brk ≤ s.limit ∧
    s.limit < 2 ^ 63 ∧ s.lock = false

instance (s : State) : Decidable (Fresh s) := by
  unfold Fresh; infer_instance

/-- The pointer `p` is the payload of a block of the registry that is in use. -/
def Live (s : State) (p : Nat) : Prop :=
  ∃ l b, Chain s.hdr s.head l ∧ b ∈ l ∧ p = payload b ∧ (s.hdr b).is_free = 0

/-- A request size whose `total_size = sizeof(header_t) + size` is a positive
`intptr_t`: the sum neither wraps nor reads as a negative move of the break. -/
def Sane (size : Nat) : Prop := HEADER_SIZE + size < 2 ^ 63

instance (size : Nat) : Decidable (Sane size) := by
  unfold Sane; infer_instance

/-- The states that a fresh allocator reaches through calls of `malloc`, `free`,
`calloc` and `realloc` that return, with `NULL` or live pointers and with sane
sizes. -/
inductive Reachable : State → Prop
  | fresh (s : State) : Fresh s → Reachable s
  | malloc (fuel : Nat) (s : State) (size p : Nat) (s1 : State) :
      Reachable s → Sane size → MemAlloc.malloc fuel s size = some (p, s1) → Reachable s1
  | free (fuel : Nat) (s : State) (p : Nat) (s1 : State) :
      Reachable s → (p = NULL ∨ Live s p) → MemAlloc.free fuel s p = some s1 → Reachable s1
  | calloc (fuel : Nat) (s : State) (num nsize p : Nat) (s1 : State) :
      Reachable s → Sane (num * nsize) → MemAlloc.calloc fuel s num nsize = some (p, s1) →
      Reachable s1
  | realloc (fuel : Nat) (s : State) (p size q : Nat) (s1 : State) :
      Reachable s → (p = NULL ∨ Live s p) → Sane size →
      MemAlloc.realloc fuel s p size = some (q, s1) → Reachable s1

/-- The test of the scan in `get_free_block`: the block is free and large
enough. -/
def fits (hdr : Nat → header_t) (size a : Nat) : Prop :=
  (hdr a).is_free ≠ 0 ∧ (hdr a).size ≥ size

instance (hdr : Nat → header_t) (size a : Nat) : Decidable (fits hdr size a) := by
  unfold fits; infer_instance

/-- The first header of `l` that passes the test of the scan, `NULL` when there
is none. -/
def first_fit (hdr : Nat → header_t) (size : Nat) : List Nat → Nat
  | [] => NULL
  | a :: l => if fits hdr size a then a else first_fit hdr size l

/-! ## Basic facts -/

theorem State.ext_fields {s t : State} (h1 : s.head = t.head) (h2 : s.tail = t.tail)
    (h3 : s.hdr = t.hdr) (h4 : s.mem = t.mem) (h5 : s.brk = t.brk) (h6 : s.base = t.base)
    (h7 : s.limit = t.limit) (h8 : s.lock = t.lock) : s = t := by
  cases s; cases t; simp_all

theorem lock_unlock_id (s : State) (h : s.lock = false) :
    pthread_mutex_unlock { s with lock := true } = s := by
  cases s; simp_all [pthread_mutex_unlock]

theorem chain_congr {hdr hdr2 : Nat → header_t} :
    ∀ (l : List Nat) (p : Nat), (∀ a ∈ l, (hdr2 a).next = (hdr a).next) →
      Chain hdr p l → Chain hdr2 p l
  | [], _, _, h => h
  | a :: l, p, hag, h => by
    obtain ⟨h1, h2, h3⟩ := h
    refine ⟨h1, h2, ?_⟩
    rw [hag a (List.mem_cons_self a l)]
    exact chain_congr l _ (fun b hb => hag b (List.mem_cons_of_mem a hb)) h3

theorem contig_congr {hdr hdr2 : Nat → header_t} :
    ∀ (l : List Nat) (a e : Nat), (∀ b ∈ l, (hdr2 b).size = (hdr b).size) →
      Contig hdr a l e → Contig hdr2 a l e
  | [], _, _, _, h => h
  | b :: l, a, e, hag, h => by
    obtain ⟨h1, h2⟩ := h
    refine ⟨h1, ?_⟩
    have : (hdr2 a).size = (hdr a).size := by rw [← h1]; exact hag b (List.mem_cons_self b l)
    rw [this]
    exact contig_congr l _ e (fun c hc => hag c (List.mem_cons_of_mem b hc)) h2

theorem chain_ne_null {hdr : Nat → header_t} :
    ∀ (l : List Nat) (p : Nat), Chain hdr p l → ∀ a ∈ l, a ≠ NULL
  | [], _, _, a, ha => by simp at ha
  | b :: l, p, h, a, ha => by
    obtain ⟨_, h2, h3⟩ := h
    rcases List.mem_cons.1 ha with rfl | ha
    · exact h2
    · exact chain_ne_null l _ h3 a ha

theorem first_fit_mem_or_null (hdr : Nat → header_t) (size : Nat) :
    ∀ l : List Nat, first_fit hdr size l = NULL ∨ first_fit hdr size l ∈ l
  | [] => Or.inl rfl
  | a :: l => by
    unfold first_fit
    split
    · exact Or.inr (List.mem_cons_self a l)
    · rcases first_fit_mem_or_null hdr size l with h | h
      · exact Or.inl h
      · exact Or.inr (List.mem_cons_of_mem a h)

/-- The scan of `get_free_block` over a chain returns `first_fit`. -/
theorem get_free_block_loop_eq {hdr : Nat → header_t} (size : Nat) :
    ∀ (l : List Nat) (p fuel : Nat), Chain hdr p l → l.length < fuel →
      get_free_block_loop fuel hdr p size = some (first_fit hdr size l)
  | [], p, fuel, h, hf => by
    obtain ⟨n, rfl⟩ : ∃ n, fuel = n + 1 := ⟨fuel - 1, by omega⟩
    simp only [Chain] at h
    simp [get_free_block_loop, h, first_fit]
  | a :: l, p, fuel, h, hf => by
    obtain ⟨n, rfl⟩ : ∃ n, fuel = n + 1 := ⟨fuel - 1, by simp at hf; omega⟩
    obtain ⟨h1, h2, h3⟩ := h
    subst h1
    have hl : l.length < n := by simp at hf; omega
    unfold get_free_block_loop first_fit
    rw [if_neg h2]
    by_cases hfit : fits hdr size p
    · rw [if_pos hfit, if_pos (show (hdr p).is_free ≠ 0 ∧ (hdr p).size ≥ size from hfit)]
    · rw [if_neg hfit, if_neg (show ¬((hdr p).is_free ≠ 0 ∧ (hdr p).size ≥ size) from hfit)]
      exact get_free_block_loop_eq size l _ n h3 hl

theorem get_free_block_lock (fuel : Nat) (s : State) (size : Nat) (b : Bool) :
    get_free_block fuel { s with lock := b } size = get_free_block fuel s size := rfl

theorem sbrk_zero (s : State) : sbrk s 0 = (s.brk, s) := by
  simp [sbrk, sbrk_denied]

theorem sbrk_denied_lock (s : State) (b : Bool) (inc : Nat) :
    sbrk_denied { s with lock := b } inc = sbrk_denied s inc := rfl

theorem sbrk_of_denied {s : State} {inc : Nat} (h : sbrk_denied s inc = true) :
    sbrk s inc = (SBRK_FAILED, s) := by
  simp [sbrk, h]

theorem sbrk_fst_of_not_denied {s : State} {inc : Nat} (h : sbrk_denied s inc = false) :
    (sbrk s inc).1 = s.brk := by
  unfold sbrk; rw [h]; simp; split <;> rfl

/-- The three exits of `malloc` after the scan. -/
theorem malloc_hit {fuel : Nat} {s : State} {size h : Nat} (hs : size ≠ 0)
    (hl : s.lock = false) (hg : get_free_block fuel s size = some h) (hh : h ≠ NULL) :
    malloc fuel s size = some (payload h, { s with hdr := set_is_free s.hdr h 0 }) := by
  obtain ⟨head, tail, hdr, mem, brk, base, limit, lock⟩ := s
  simp only at hl
  subst hl
  simp only [get_free_block] at hg
  simp [malloc, hs, pthread_mutex_lock, get_free_block, hg, hh, pthread_mutex_unlock]

theorem malloc_denied {fuel : Nat} {s : State} {size : Nat} (hs : size ≠ 0)
    (hl : s.lock = false) (hg : get_free_block fuel s size = some NULL)
    (hd : sbrk_denied s ((HEADER_SIZE + size) % WORD) = true) :
    malloc fuel s size = some (NULL, s) := by
  obtain ⟨head, tail, hdr, mem, brk, base, limit, lock⟩ := s
  simp only at hl
  subst hl
  simp only [get_free_block] at hg
  have hd2 : sbrk_denied ⟨head, tail, hdr, mem, brk, base, limit, true⟩
      ((HEADER_SIZE + size) % WORD) = true := hd
  simp [malloc, hs, pthread_mutex_lock, get_free_block, hg, pthread_mutex_unlock,
    sbrk_of_denied hd2]

theorem malloc_grow {fuel : Nat} {s : State} {size : Nat} (hs : size ≠ 0)
    (hl : s.lock = false) (hg : get_free_block fuel s size = some NULL)
    (hd : sbrk_denied s ((HEADER_SIZE + size) % WORD) = false) (hb : s.brk ≠ SBRK_FAILED) :
    malloc fuel s size = some (payload s.brk,
      { s with hdr := appended s.hdr s.tail s.brk size,
               head := if s.head = NULL then s.brk else s.head,
               tail := s.brk,
               brk := (sbrk s ((HEADER_SIZE + size) % WORD)).2.brk }) := by
  obtain ⟨head, tail, hdr, mem, brk, base, limit, lock⟩ := s
  simp only at hl hb
  subst hl
  simp only [get_free_block] at hg
  have hd2 : sbrk_denied ⟨head, tail, hdr, mem, brk, base, limit, true⟩
      ((HEADER_SIZE + size) % WORD) = false := hd
  have h1 := sbrk_fst_of_not_denied hd2
  have h2 : (sbrk ⟨head, tail, hdr, mem, brk, base, limit, true⟩
      ((HEADER_SIZE + size) % WORD)).2 = ⟨head, tail, hdr, mem,
        (sbrk ⟨head, tail, hdr, mem, brk, base, limit, false⟩
          ((HEADER_SIZE + size) % WORD)).2.brk, base, limit, true⟩ := by
    unfold sbrk; rw [hd, hd2]; simp; split <;> rfl
  simp only at h1
  simp [malloc, hs, pthread_mutex_lock, get_free_block, hg, pthread_mutex_unlock, h1, h2, hb,
    appended]

theorem chain_head {hdr : Nat → header_t} {p x : Nat} {l : List Nat}
    (h : Chain hdr p (x :: l)) : p = x := h.1

/-- Appending a new header `t` behind the last header `q` of a chain. -/
theorem chain_append_new {hdr hdr2 : Nat → header_t} {q t : Nat} (hqt : t ≠ q) (ht : t ≠ NULL)
    (hq : (hdr2 q).next = t) (hn : (hdr2 t).next = NULL)
    (hag : ∀ a, a ≠ t → a ≠ q → (hdr2 a).next = (hdr a).next) :
    ∀ (l : List Nat) (p : Nat), Chain hdr p (l ++ [q]) → q ∉ l → t ∉ l →
      Chain hdr2 p (l ++ [q, t])
  | [], p, h, _, _ => by
    obtain ⟨h1, h2, _⟩ := h
    exact ⟨h1, h2, hq.symm ▸ ⟨rfl, ht, hn⟩⟩
  | a :: l, p, h, hql, htl => by
    obtain ⟨h1, h2, h3⟩ := h
    have haq : a ≠ q := fun e => hql (e ▸ List.mem_cons_self a l)
    have hat : a ≠ t := fun e => htl (e ▸ List.mem_cons_self a l)
    refine ⟨h1, h2, ?_⟩
    rw [hag a hat haq]
    exact chain_append_new hqt ht hq hn hag l _ h3
      (fun hm => hql (List.mem_cons_of_mem a hm)) (fun hm => htl (List.mem_cons_of_mem a hm))

/-- Cutting the last header `t` off a chain by clearing the link of its
predecessor `q`. -/
theorem chain_drop_last {hdr hdr2 : Nat → header_t} {q t : Nat}
    (hq : (hdr2 q).next = NULL) (hag : ∀ a, a ≠ q → (hdr2 a).next = (hdr a).next) :
    ∀ (l : List Nat) (p : Nat), Chain hdr p (l ++ [q, t]) → q ∉ l → Chain hdr2 p (l ++ [q])
  | [], p, h, _ => by
    obtain ⟨h1, h2, _⟩ := h
    exact ⟨h1, h2, hq⟩
  | a :: l, p, h, hql => by
    obtain ⟨h1, h2, h3⟩ := h
    have haq : a ≠ q := fun e => hql (e ▸ List.mem_cons_self a l)
    refine ⟨h1, h2, ?_⟩
    rw [hag a haq]
    exact chain_drop_last hq hag l _ h3 (fun hm => hql (List.mem_cons_of_mem a hm))

/-- The loop of `free` on a chain with at least two headers: it stops at the
predecessor `q` of the tail `t`, clears its link and makes it the tail. -/
theorem free_loop_eq {hdr : Nat → header_t} {q t : Nat} :
    ∀ (l : List Nat) (p fuel : Nat), Chain hdr p (l ++ [q, t]) → t ∉ l → t ≠ q →
      l.length + 1 < fuel → free_loop fuel hdr t p = some (set_next hdr q NULL, q)
  | [], p, fuel, h, _, _, hf => by
    obtain ⟨n, rfl⟩ : ∃ n, fuel = n + 2 := ⟨fuel - 2, by simp at hf; omega⟩
    obtain ⟨h1, h2, h3, _⟩ := h
    subst h1
    simp [free_loop, h2, h3, set_next]
  | a :: l, p, fuel, h, htl, htq, hf => by
    obtain ⟨n, rfl⟩ : ∃ n, fuel = n + 1 := ⟨fuel - 1, by simp at hf; omega⟩
    obtain ⟨h1, h2, h3⟩ := h
    subst h1
    have hnt : (hdr p).next ≠ t := by
      cases l with
      | nil => rw [chain_head h3]; exact fun e => htq e.symm
      | cons b l =>
        rw [chain_head h3]
        exact fun e => htl (e ▸ List.mem_cons_of_mem p (List.mem_cons_self b l))
    unfold free_loop
    rw [if_neg h2, if_neg hnt]
    exact free_loop_eq l _ n h3 (fun hm => htl (List.mem_cons_of_mem p hm)) htq
      (by simp at hf; omega)

/-- Blocks laid out in address order lie between the start and the end. -/
theorem contig_bounds {hdr : Nat → header_t} :
    ∀ (l : List Nat) (a e : Nat), Contig hdr a l e →
      a ≤ e ∧ ∀ b ∈ l, a ≤ b ∧ b + HEADER_SIZE + (hdr b).size ≤ e
  | [], a, e, h => ⟨Nat.le_of_eq h, fun b hb => by simp at hb⟩
  | c :: l, a, e, h => by
    obtain ⟨h1, h2⟩ := h
    subst h1
    obtain ⟨ih1, ih2⟩ := contig_bounds l _ e h2
    refine ⟨by omega, fun b hb => ?_⟩
    rcases List.mem_cons.1 hb with rfl | hb
    · exact ⟨Nat.le_refl _, ih1⟩
    · have := ih2 b hb
      simp only [HEADER_SIZE] at *
      omega

theorem contig_snoc {hdr : Nat → header_t} {t : Nat} :
    ∀ (l : List Nat) (a e : Nat), Contig hdr a (l ++ [t]) e ↔
      Contig hdr a l t ∧ e = t + HEADER_SIZE + (hdr t).size
  | [], a, e => by
    simp only [List.nil_append, Contig]
    constructor
    · rintro ⟨h1, h2⟩; subst h1; exact ⟨rfl, h2.symm⟩
    · rintro ⟨h1, h2⟩; subst h1; exact ⟨rfl, h2.symm⟩
  | c :: l, a, e => by
    show (c = a ∧ Contig hdr (a + HEADER_SIZE + (hdr a).size) (l ++ [t]) e) ↔ _
    rw [contig_snoc l]
    simp only [Contig]
    tauto

theorem contig_not_mem_end {hdr : Nat → header_t} {l : List Nat} {a e : Nat}
    (h : Contig hdr a l e) : e ∉ l := by
  intro hm
  have := (contig_bounds l a e h).2 e hm
  simp only [HEADER_SIZE] at this
  omega

theorem contig_nodup {hdr : Nat → header_t} :
    ∀ (l : List Nat) (a e : Nat), Contig hdr a l e → l.Nodup
  | [], _, _, _ => List.nodup_nil
  | c :: l, a, e, h => by
    obtain ⟨h1, h2⟩ := h
    subst h1
    refine List.nodup_cons.2 ⟨fun hm => ?_, contig_nodup l _ e h2⟩
    have := ((contig_bounds l _ e h2).2 c hm).1
    simp only [HEADER_SIZE] at this
    omega

theorem first_fit_spec (hdr : Nat → header_t) (size : Nat) :
    ∀ l : List Nat, (first_fit hdr size l = NULL ∧ ∀ a ∈ l, ¬ fits hdr size a) ∨
      (∃ pre post, l = pre ++ first_fit hdr size l :: post ∧ first_fit hdr size l ∈ l ∧
        fits hdr size (first_fit hdr size l) ∧ ∀ a ∈ pre, ¬ fits hdr size a)
  | [] => Or.inl ⟨rfl, fun a ha => by simp at ha⟩
  | b :: l => by
    unfold first_fit
    by_cases hb : fits hdr size b
    · rw [if_pos hb]
      exact Or.inr ⟨[], l, rfl, List.mem_cons_self b l, hb, fun a ha => by simp at ha⟩
    · rw [if_neg hb]
      rcases first_fit_spec hdr size l with ⟨h1, h2⟩ | ⟨pre, post, h1, hm, h2, h3⟩
      · refine Or.inl ⟨h1, fun a ha => ?_⟩
        rcases List.mem_cons.1 ha with rfl | ha
        · exact hb
        · exact h2 a ha
      · refine Or.inr ⟨b :: pre, post, by rw [List.cons_append, ← h1],
          List.mem_cons_of_mem b hm, h2, fun a ha => ?_⟩
        rcases List.mem_cons.1 ha with rfl | ha
        · exact hb
        · exact h3 a ha

/-- C2: on a registry whose chain from `head` is `l`, `get_free_block` returns
(given fuel for the whole chain) a pointer `r` such that either `r` is a block of
the chain that is free with `size >= requested` while every block before it in
chain order fails that test, or `r` is `NULL` and no block of the chain passes
the test; `r` is `NULL` exactly in the second case.  The function only reads
the state: its result is a pointer and no state. -/
theorem get_free_block_first_fit (fuel : Nat) (s : State) (size : Nat) (l : List Nat)
    (hc : Chain s.hdr s.head l) (hf : l.length < fuel) :
    ∃ r, get_free_block fuel s size = some r ∧
      ((∃ pre post, l = pre ++ r :: post ∧ r ≠ NULL ∧
          ((s.hdr r).is_free ≠ 0 ∧ (s.hdr r).size ≥ size) ∧
          ∀ a ∈ pre, ¬ ((s.hdr a).is_free ≠ 0 ∧ (s.hdr a).size ≥ size)) ∨
        (r = NULL ∧ ∀ a ∈ l, ¬ ((s.hdr a).is_free ≠ 0 ∧ (s.hdr a).size ≥ size))) ∧
      (r = NULL ↔ ∀ a ∈ l, ¬ ((s.hdr a).is_free ≠ 0 ∧ (s.hdr a).size ≥ size)) := by
  refine ⟨first_fit s.hdr size l, get_free_block_loop_eq size l _ fuel hc hf, ?_, ?_⟩
  · rcases first_fit_spec s.hdr size l with ⟨h1, h2⟩ | ⟨pre, post, h1, hm, h2, h3⟩
    · exact Or.inr ⟨h1, h2⟩
    · exact Or.inl ⟨pre, post, h1, chain_ne_null l _ hc _ hm, h2, h3⟩
  · rcases first_fit_spec s.hdr size l with ⟨h1, h2⟩ | ⟨pre, post, h1, hm, h2, h3⟩
    · exact ⟨fun _ => h2, fun _ => h1⟩
    · have hne : first_fit s.hdr size l ≠ NULL := chain_ne_null l _ hc _ hm
      constructor
      · intro h; exact absurd h hne
      · intro h
        exact absurd h2 (h _ hm)

/-- C7: `malloc(0)` returns `NULL` and leaves the whole state as it was, whatever
the state is, also with no fuel for the scan and with the mutex held: neither the
scan nor `sbrk` nor the mutex is touched. -/
theorem malloc_zero (fuel : Nat) (s : State) : malloc fuel s 0 = some (NULL, s) := by
  simp [malloc]

/-- C6: when no block of the chain is free and large enough and the platform
denies the growth by `sizeof(header_t) + size`, `malloc(size)` returns `NULL`
and the state after the call equals the state before it. -/
theorem malloc_denied_unchanged (fuel : Nat) (s : State) (size : Nat) (l : List Nat)
    (hs : 0 < size) (hr : Registry s l) (hf : l.length < fuel)
    (hfit : ∀ a ∈ l, ¬ ((s.hdr a).is_free ≠ 0 ∧ (s.hdr a).size ≥ size))
    (hd : sbrk_denied s ((HEADER_SIZE + size) % WORD) = true) :
    malloc fuel s size = some (NULL, s) := by
  obtain ⟨hc, _, hl⟩ := hr
  have hg : get_free_block fuel s size = some (first_fit s.hdr size l) :=
    get_free_block_loop_eq size l _ fuel hc hf
  have h0 : first_fit s.hdr size l = NULL := by
    rcases first_fit_spec s.hdr size l with ⟨h1, _⟩ | ⟨pre, post, _, hm, h2, _⟩
    · exact h1
    · exact absurd h2 (hfit _ hm)
  rw [h0] at hg
  exact malloc_denied (Nat.pos_iff_ne_zero.1 hs) hl hg hd

/-- The word product fails the division test of `calloc` exactly when the
mathematical product does not fit in a word. -/
theorem calloc_test_iff (num nsize : Nat) (hn : 0 < num) :
    nsize ≠ (num * nsize) % WORD / num ↔ WORD ≤ num * nsize := by
  constructor
  · intro h
    by_contra hlt
    push_neg at hlt
    rw [Nat.mod_eq_of_lt hlt, Nat.mul_div_cancel_left nsize hn] at h
    exact h rfl
  · intro h heq
    have h1 : (num * nsize) % WORD < WORD := Nat.mod_lt _ (by decide)
    have h2 : num * ((num * nsize) % WORD / num) ≤ (num * nsize) % WORD :=
      Nat.mul_div_le _ _
    rw [← heq] at h2
    omega

/-- C8: for `num > 0` and `nsize > 0` (word-sized or not), the test of `calloc`,
`nsize != (num * nsize mod 2^64) / num`, is true exactly when `num * nsize`
does not fit in a word; when it does not fit, `calloc` returns `NULL` with the
state untouched in every state (also with no fuel and with the mutex held, so
`malloc` is not called); when it fits, `calloc` is not stopped by the test and
goes on to `malloc(num * nsize)`. -/
theorem calloc_overflow_check (num nsize : Nat) (hn : 0 < num) (hm : 0 < nsize) :
    (nsize ≠ (num * nsize) % WORD / num ↔ WORD ≤ num * nsize) ∧
    (WORD ≤ num * nsize → ∀ fuel s, calloc fuel s num nsize = some (NULL, s)) ∧
    (num * nsize < WORD → ∀ fuel s, calloc fuel s num nsize =
      match malloc fuel s (num * nsize) with
      | none => none
      | some r =>
        if r.1 = NULL then some (NULL, r.2)
        else some (r.1, { r.2 with mem := memset r.2.mem r.1 0 (num * nsize) })) := by
  have key := calloc_test_iff num nsize hn
  refine ⟨key, fun h fuel s => ?_, fun h fuel s => ?_⟩
  · have := key.2 h
    simp [calloc, Nat.pos_iff_ne_zero.1 hn, Nat.pos_iff_ne_zero.1 hm, this]
  · have h1 : ¬ (nsize ≠ (num * nsize) % WORD / num) := fun h2 => by
      have := key.1 h2; omega
    have h2 : (num * nsize) % WORD = num * nsize := Nat.mod_eq_of_lt h
    unfold calloc
    rw [if_neg (by simp [Nat.pos_iff_ne_zero.1 hn, Nat.pos_iff_ne_zero.1 hm])]
    simp only [h2] at h1 ⊢
    rw [if_neg h1]

/-- After the scan has returned, `malloc` returns. -/
theorem malloc_returns {fuel : Nat} {s : State} {size h : Nat} (hl : s.lock = false)
    (hg : get_free_block fuel s size = some h) : ∃ r, malloc fuel s size = some r := by
  obtain ⟨head, tail, hdr, mem, brk, base, limit, lock⟩ := s
  simp only at hl
  subst hl
  simp only [get_free_block] at hg
  by_cases hs : size = 0
  · exact ⟨(NULL, ⟨head, tail, hdr, mem, brk, base, limit, false⟩), by simp [malloc, hs]⟩
  · unfold malloc
    rw [if_neg hs]
    simp only [pthread_mutex_lock, Bool.false_eq_true, if_false, get_free_block]
    rw [hg]
    dsimp only
    split_ifs <;> exact ⟨_, rfl⟩

theorem malloc_total {fuel : Nat} {s : State} {l : List Nat} (size : Nat) (hr : Registry s l)
    (hf : l.length < fuel) : ∃ r, malloc fuel s size = some r :=
  malloc_returns hr.2.2 (get_free_block_loop_eq size l _ fuel hr.1 hf)

/-- C9: on a well-formed registry (and fuel for the scan) `calloc` returns, and
when the pointer `p` it returns is not `NULL`, every byte `p[i]` with
`0 <= i < num * nsize` is zero in the resulting state, whatever the bytes were
before (new block or reused block). -/
theorem calloc_zeroed (fuel : Nat) (s : State) (num nsize : Nat) (l : List Nat)
    (hr : Registry s l) (hf : l.length < fuel) :
    ∃ p s2, calloc fuel s num nsize = some (p, s2) ∧
      (p ≠ NULL → ∀ i, i < num * nsize → s2.mem (p + i) = 0) := by
  by_cases h0 : num = 0 ∨ nsize = 0
  · exact ⟨NULL, s, by simp [calloc, h0], fun h => absurd rfl h⟩
  · have hn : 0 < num := by omega
    by_cases ht : nsize ≠ (num * nsize) % WORD / num
    · exact ⟨NULL, s, by simp only [calloc]; rw [if_neg h0, if_pos ht], fun h => absurd rfl h⟩
    · have hfit : num * nsize < WORD := by
        by_contra hc
        exact ht ((calloc_test_iff num nsize hn).2 (by omega))
      have hsz : (num * nsize) % WORD = num * nsize := Nat.mod_eq_of_lt hfit
      obtain ⟨r, hm⟩ := malloc_total ((num * nsize) % WORD) hr hf
      by_cases hp : r.1 = NULL
      · refine ⟨NULL, r.2, ?_, fun h => absurd rfl h⟩
        simp only [calloc]; rw [if_neg h0, if_neg ht]; simp only [hm, hp, if_true]
      · refine ⟨r.1, { r.2 with mem := memset r.2.mem r.1 0 ((num * nsize) % WORD) }, ?_, ?_⟩
        · simp only [calloc]; rw [if_neg h0, if_neg ht]; simp only [hm, hp, if_false]
        · intro _ i hi
          simp only [memset, hsz]
          rw [if_pos ⟨Nat.le_add_right _ _, by omega⟩]

/-- C10 (amended): for a pointer `block` that is not `NULL` and every `n` with
`0 < n <= ` the size recorded in the header in front of `block`,
`realloc(block, n)` returns `block` itself and the state after the call
equals the state before it (registry, flags, boundary and payload bytes), with no
fuel needed: nothing is scanned, allocated or copied. -/
theorem realloc_within_size (fuel : Nat) (s : State) (block n : Nat) (hb : block ≠ NULL)
    (hn : 0 < n) (hsz : n ≤ (s.hdr (header_of block)).size) :
    realloc fuel s block n = some (block, s) := by
  unfold realloc
  rw [if_neg (by simp [hb]; omega)]
  simp only [ge_iff_le, hsz, if_true]

/-- The exit of `free` that only sets the flag. -/
theorem free_flag {fuel : Nat} {s : State} {block : Nat} (hb : block ≠ NULL)
    (hl : s.lock = false)
    (ht : ptr_add block (s.hdr (header_of block)).size ≠ s.brk) :
    free fuel s block = some { s with hdr := set_is_free s.hdr (header_of block) 1 } := by
  obtain ⟨head, tail, hdr, mem, brk, base, limit, lock⟩ := s
  simp only at hl ht
  subst hl
  simp [free, hb, pthread_mutex_lock, sbrk_zero, ht, pthread_mutex_unlock]

theorem free_unlink_lock (fuel : Nat) (s : State) (b : Bool) :
    free_unlink fuel { s with lock := b } =
      (free_unlink fuel s).map fun u => { u with lock := b } := by
  unfold free_unlink
  by_cases h : s.head = s.tail
  · simp [h]
  · simp only [h, if_false]
    cases free_loop fuel s.hdr s.tail s.head <;> rfl

theorem sbrk_snd_lock (s : State) (b : Bool) (inc : Nat) :
    (sbrk { s with lock := b } inc).2 = { (sbrk s inc).2 with lock := b } := by
  unfold sbrk
  rw [sbrk_denied_lock]
  split_ifs <;> rfl

theorem sbrk_snd_lock_eq (s : State) (inc : Nat) : (sbrk s inc).2.lock = s.lock := by
  unfold sbrk
  split_ifs <;> rfl

/-- The exit of `free` that gives the top block back to the platform. -/
theorem free_top {fuel : Nat} {s u : State} {block : Nat} (hb : block ≠ NULL)
    (hl : s.lock = false)
    (ht : ptr_add block (s.hdr (header_of block)).size = s.brk)
    (hu : free_unlink fuel s = some u) :
    free fuel s block = some (sbrk u
      ((WORD + WORD - HEADER_SIZE - (u.hdr (header_of block)).size) % WORD)).2 := by
  have hul : u.lock = false := by
    unfold free_unlink at hu
    split_ifs at hu
    · cases hu; exact hl
    · cases hfl : free_loop fuel s.hdr s.tail s.head with
      | none => rw [hfl] at hu; cases hu
      | some r => rw [hfl] at hu; cases hu; exact hl
  have h1 : free_unlink fuel { s with lock := true } = some { u with lock := true } := by
    rw [free_unlink_lock, hu]; rfl
  unfold free
  rw [if_neg hb]
  simp only [pthread_mutex_lock, hl, Bool.false_eq_true, if_false, sbrk_zero]
  rw [if_pos ht, h1]
  simp only [sbrk_snd_lock, pthread_mutex_unlock]
  have := sbrk_snd_lock_eq u ((WORD + WORD - HEADER_SIZE - (u.hdr (header_of block)).size) % WORD)
  rw [hul] at this
  generalize (sbrk u _).2 = v at this ⊢
  cases v
  simp_all

theorem payload_eq {b : Nat} (h : b + HEADER_SIZE < WORD) : payload b = b + HEADER_SIZE := by
  unfold payload ptr_add
  exact Nat.mod_eq_of_lt h

theorem header_of_payload {b : Nat} (h : b + HEADER_SIZE < WORD) : header_of (payload b) = b := by
  rw [payload_eq h]
  unfold header_of
  simp only [HEADER_SIZE, WORD] at *
  omega

theorem payload_ne_null {b : Nat} (h : b + HEADER_SIZE < WORD) : payload b ≠ NULL := by
  rw [payload_eq h]
  simp only [HEADER_SIZE, NULL]
  omega

/-- What `sbrk` does to the break, read as a signed move. -/
theorem sbrk_brk_signed {s : State} {inc : Nat} (hw : inc < WORD)
    (hd : sbrk_denied s inc = false) :
    ((sbrk s inc).2.brk : Int) = (s.brk : Int) + intptr inc := by
  unfold sbrk intptr
  rw [hd]
  unfold sbrk_denied at hd
  by_cases h0 : inc = 0
  · subst h0; simp
  · by_cases h63 : inc < 2 ^ 63
    · rw [if_neg (by simp), if_pos h63, if_pos h63]
      simp
    · rw [if_neg h0, if_neg h63] at hd
      rw [if_neg (by simp), if_neg h63, if_neg h63]
      simp only [decide_eq_false_iff_not, not_lt, WORD] at hd hw ⊢
      omega

theorem sbrk_frame (s : State) (inc : Nat) :
    (sbrk s inc).2 = { s with brk := (sbrk s inc).2.brk } := by
  unfold sbrk
  split_ifs <;> rfl

/-- Address facts of a block of a state that satisfies the invariant. -/
theorem inv_block_bounds {s : State} {l : List Nat} (hinv : Inv s l) {b : Nat} (hb : b ∈ l) :
    s.base ≤ b ∧ b + HEADER_SIZE + (s.hdr b).size ≤ s.brk ∧ s.brk < 2 ^ 63 := by
  obtain ⟨_, hc, _, h1, h2⟩ := hinv
  have := (contig_bounds l _ _ hc).2 b hb
  omega

theorem inv_brk {s : State} {l : List Nat} (hinv : Inv s l) :
    s.base ≤ s.brk ∧ s.brk < 2 ^ 63 ∧ 0 < s.brk := by
  obtain ⟨_, hc, h0, h1, h2⟩ := hinv
  have := (contig_bounds l _ _ hc).1
  omega

/-- Under the invariant the block whose payload ends at the break is the tail:
the chain is `pre ++ [b]`. -/
theorem inv_top_is_last {s : State} {l : List Nat} (hinv : Inv s l) {b : Nat} (hb : b ∈ l)
    (ht : b + HEADER_SIZE + (s.hdr b).size = s.brk) : ∃ pre, l = pre ++ [b] := by
  rcases List.eq_nil_or_concat l with rfl | ⟨pre, t, rfl⟩
  · simp at hb
  · refine ⟨pre, ?_⟩
    have hc := hinv.2.1
    rw [List.concat_eq_append] at hc hb ⊢
    rw [contig_snoc] at hc
    rcases List.mem_append.1 hb with hm | hm
    · have := (contig_bounds pre _ _ hc.1).2 b hm
      simp only [HEADER_SIZE] at *
      omega
    · simp at hm; rw [hm]

theorem inv_set_is_free {s : State} {l : List Nat} (hinv : Inv s l) (b v : Nat) :
    Inv { s with hdr := set_is_free s.hdr b v } l := by
  obtain ⟨⟨h1, h2, h3⟩, h4, h5⟩ := hinv
  refine ⟨⟨chain_congr l _ (fun a _ => ?_) h1, h2, h3⟩, contig_congr l _ _ (fun a _ => ?_) h4, h5⟩
  · simp only [set_is_free]; split_ifs <;> rfl
  · simp only [set_is_free]; split_ifs <;> rfl

theorem first_fit_congr {hdr hdr2 : Nat → header_t} (size : Nat) :
    ∀ l : List Nat, (∀ a ∈ l, (fits hdr2 size a ↔ fits hdr size a)) →
      first_fit hdr2 size l = first_fit hdr size l
  | [], _ => rfl
  | b :: l, h => by
    have ih := first_fit_congr size l (fun a ha => h a (List.mem_cons_of_mem b ha))
    have hb := h b (List.mem_cons_self b l)
    unfold first_fit
    by_cases hf : fits hdr size b
    · rw [if_pos hf, if_pos (hb.2 hf)]
    · rw [if_neg hf, if_neg (fun h2 => hf (hb.1 h2)), ih]

theorem first_fit_cons (hdr : Nat → header_t) (size b : Nat) (l : List Nat) :
    first_fit hdr size (b :: l) = if fits hdr size b then b else first_fit hdr size l := rfl

theorem first_fit_skip {hdr : Nat → header_t} {size : Nat} :
    ∀ (pre l : List Nat), (∀ a ∈ pre, ¬ fits hdr size a) →
      first_fit hdr size (pre ++ l) = first_fit hdr size l
  | [], _, _ => rfl
  | b :: pre, l, h => by
    show first_fit hdr size (b :: (pre ++ l)) = _
    rw [first_fit_cons, if_neg (h b (List.mem_cons_self b pre))]
    exact first_fit_skip pre l (fun a ha => h a (List.mem_cons_of_mem b ha))

theorem first_fit_here {hdr : Nat → header_t} {size b : Nat} (l : List Nat)
    (h : fits hdr size b) : first_fit hdr size (b :: l) = b := by
  rw [first_fit_cons, if_pos h]

theorem first_fit_eq_null {hdr : Nat → header_t} {size : Nat} {l : List Nat}
    (h : ∀ a ∈ l, ¬ fits hdr size a) : first_fit hdr size l = NULL := by
  rcases first_fit_spec hdr size l with ⟨h1, _⟩ | ⟨_, _, _, hm, h2, _⟩
  · exact h1
  · exact absurd h2 (h _ hm)

/-- What `free` does to a block inside the region, and the `malloc` after it. -/
theorem free_interior_spec (fuel : Nat) (s : State) (l : List Nat) (b : Nat)
    (hinv : Inv s l) (hb : b ∈ l)
    (hnt : ptr_add (payload b) (s.hdr b).size ≠ s.brk) :
    ∃ s1, free fuel s (payload b) = some s1 ∧
      s1 = { s with hdr := set_is_free s.hdr b 1 } ∧
      ∀ n fuel2, 0 < n → n ≤ (s.hdr b).size → l.length < fuel2 →
        ∃ r pre post s2, l = pre ++ r :: post ∧
          ((s1.hdr r).is_free ≠ 0 ∧ (s1.hdr r).size ≥ n) ∧
          (∀ a ∈ pre, ¬ ((s1.hdr a).is_free ≠ 0 ∧ (s1.hdr a).size ≥ n)) ∧
          (∀ pre2 post2, l = pre2 ++ b :: post2 →
            (∀ a ∈ pre2, ¬ ((s1.hdr a).is_free ≠ 0 ∧ (s1.hdr a).size ≥ n)) → r = b) ∧
          get_free_block fuel2 s1 n = some r ∧ r ≠ NULL ∧
          malloc fuel2 s1 n = some (payload r, s2) ∧
          s2 = { s1 with hdr := set_is_free s1.hdr r 0 } ∧ s2.brk = s.brk := by
  have hbb := inv_block_bounds hinv hb
  have hlt : b + HEADER_SIZE < WORD := by
    simp only [HEADER_SIZE, WORD] at *; omega
  have hh : header_of (payload b) = b := header_of_payload hlt
  refine ⟨_, ?_, rfl, ?_⟩
  · have := @free_flag fuel s (payload b) (payload_ne_null hlt) hinv.1.2.2 (by rw [hh]; exact hnt)
    rw [this, hh]
  · intro n fuel2 hn hnb hf
    have hinv1 : Inv { s with hdr := set_is_free s.hdr b 1 } l := inv_set_is_free hinv b 1
    have hfb : fits (set_is_free s.hdr b 1) n b := by
      simp [fits, set_is_free]; exact hnb
    have hg := get_free_block_loop_eq n l _ fuel2 hinv1.1.1 hf
    rcases first_fit_spec (set_is_free s.hdr b 1) n l with ⟨_, h2⟩ | ⟨pre, post, h1, hm, h2, h3⟩
    · exact absurd hfb (h2 b hb)
    · have hne := chain_ne_null l _ hinv1.1.1 _ hm
      refine ⟨_, pre, post, _, h1, h2, h3, ?_, hg, hne, malloc_hit (by omega) hinv1.1.2.2 hg hne,
        rfl, rfl⟩
      intro pre2 post2 e hp
      have := first_fit_skip pre2 (b :: post2) hp
      rw [← e, first_fit_here post2 hfb] at this
      exact this

theorem list_snoc_cases {α : Type} (l : List α) : l = [] ∨ ∃ pre t, l = pre ++ [t] := by
  rcases List.eq_nil_or_concat l with h | ⟨pre, t, h⟩
  · exact Or.inl h
  · exact Or.inr ⟨pre, t, by rw [h, List.concat_eq_append]⟩

/-- The `if (head == tail)` statement of `free` removes the tail `t` of a chain
`pre ++ [t]`. -/
theorem free_unlink_eq {fuel : Nat} {s : State} {pre : List Nat} {t : Nat}
    (hc : Chain s.hdr s.head (pre ++ [t])) (htail : s.tail = t) (hnd : (pre ++ [t]).Nodup)
    (hf : pre.length < fuel) : free_unlink fuel s = some (unlinked s pre) := by
  rcases list_snoc_cases pre with rfl | ⟨pre2, q, rfl⟩
  · have h1 : s.head = t := hc.1
    simp [free_unlink, unlinked, h1, htail]
  · have hne : s.head ≠ s.tail := by
      rw [htail]
      intro e
      have hm : s.head ∈ pre2 ++ [q] := by
        cases pre2 with
        | nil => rw [chain_head hc]; simp
        | cons a pre2 => rw [chain_head hc]; simp
      rw [e] at hm
      exact (List.nodup_append.1 hnd).2.2 hm (List.mem_singleton_self t)
    have hc2 : Chain s.hdr s.head (pre2 ++ [q, t]) := by
      rw [List.append_assoc] at hc; exact hc
    have htn : t ∉ pre2 ∧ t ≠ q := by
      have := (List.nodup_append.1 hnd).2.2
      constructor
      · intro hm; exact this (List.mem_append_left _ hm) (List.mem_singleton_self t)
      · intro e; exact this (List.mem_append_right _ (by simp [e])) (List.mem_singleton_self t)
    have hloop := free_loop_eq pre2 s.head fuel hc2 htn.1 htn.2 (by simp at hf; omega)
    unfold free_unlink
    rw [if_neg hne, htail, hloop]
    simp [unlinked, List.getLastD_concat, htail]

theorem unlinked_frame (s : State) (pre : List Nat) :
    (unlinked s pre).mem = s.mem ∧ (unlinked s pre).brk = s.brk ∧
    (unlinked s pre).base = s.base ∧ (unlinked s pre).limit = s.limit ∧
    (unlinked s pre).lock = s.lock ∧ (unlinked s pre).tail = pre.getLastD NULL ∧
    (∀ a, ((unlinked s pre).hdr a).size = (s.hdr a).size ∧
      ((unlinked s pre).hdr a).is_free = (s.hdr a).is_free) := by
  unfold unlinked
  split_ifs with h
  · subst h; simp
  · simp only [true_and]
    intro a
    simp only [set_next]
    split_ifs <;> exact ⟨rfl, rfl⟩

/-- The registry after the unlinking is the chain without its last header. -/
theorem chain_unlinked {s : State} {pre : List Nat} {t : Nat}
    (hc : Chain s.hdr s.head (pre ++ [t])) (hnd : (pre ++ [t]).Nodup) :
    Chain (unlinked s pre).hdr (unlinked s pre).head pre := by
  rcases list_snoc_cases pre with rfl | ⟨pre2, q, rfl⟩
  · simp [unlinked, Chain]
  · have hq : q ∉ pre2 := by
      have := (List.nodup_append.1 (List.nodup_append.1 hnd).1).2.2
      intro hm; exact this hm (List.mem_singleton_self q)
    have hc2 : Chain s.hdr s.head (pre2 ++ [q, t]) := by
      rw [List.append_assoc] at hc; exact hc
    have : unlinked s (pre2 ++ [q]) = { s with hdr := set_next s.hdr q NULL, tail := q } := by
      simp [unlinked, List.getLastD_concat]
    rw [this]
    refine @chain_drop_last s.hdr (set_next s.hdr q NULL) q t ?_ ?_ pre2 _ hc2 hq
    · simp [set_next]
    · intro a ha; simp [set_next, ha]

/-- The call `free` on the payload of the tail `t` of a chain `pre ++ [t]`, when
the payload of `t` ends at the break. -/
theorem free_tail_eq {fuel : Nat} {s : State} {pre : List Nat} {t : Nat}
    (hc : Chain s.hdr s.head (pre ++ [t])) (htail : s.tail = t) (hnd : (pre ++ [t]).Nodup)
    (hl : s.lock = false) (hf : pre.length < fuel) (hw : t + HEADER_SIZE < WORD)
    (htop : ptr_add (payload t) (s.hdr t).size = s.brk) :
    free fuel s (payload t) = some (sbrk (unlinked s pre)
      ((WORD + WORD - HEADER_SIZE - (s.hdr t).size) % WORD)).2 := by
  have hh : header_of (payload t) = t := header_of_payload hw
  have := @free_top fuel s (unlinked s pre) (payload t) (payload_ne_null hw) hl
    (by rw [hh]; exact htop) (free_unlink_eq hc htail hnd hf)
  rw [this, hh, ((unlinked_frame s pre).2.2.2.2.2.2 t).1]

theorem chain_last_link {hdr : Nat → header_t} {q t : Nat} :
    ∀ (l : List Nat) (p : Nat), Chain hdr p (l ++ [q, t]) → (hdr q).next = t
  | [], _, h => h.2.2.1
  | _ :: l, _, h => chain_last_link l _ h.2.2

theorem inv_nodup {s : State} {l : List Nat} (hinv : Inv s l) : l.Nodup :=
  contig_nodup l _ _ hinv.2.1

/-- What `free` does to the top block of a state that satisfies the invariant. -/
theorem free_top_spec (fuel : Nat) (s : State) (l : List Nat) (b : Nat)
    (hinv : Inv s l) (hb : b ∈ l)
    (htop : ptr_add (payload b) (s.hdr b).size = s.brk) (hf : l.length < fuel) :
    ∃ s1 pre, free fuel s (payload b) = some s1 ∧ l = pre ++ [b] ∧ b ∉ pre ∧
      intptr ((WORD + WORD - HEADER_SIZE - (s.hdr b).size) % WORD) =
        -((HEADER_SIZE + (s.hdr b).size : Nat) : Int) ∧
      s1.brk + (HEADER_SIZE + (s.hdr b).size) = s.brk ∧
      Inv s1 pre ∧
      (pre = [] → s1.head = NULL ∧ s1.tail = NULL) ∧
      (∀ pre2 q, pre = pre2 ++ [q] →
        s1.head = s.head ∧ s1.tail = q ∧ (s.hdr q).next = b ∧ (s1.hdr q).next = NULL) ∧
      (∀ a, (s1.hdr a).size = (s.hdr a).size ∧ (s1.hdr a).is_free = (s.hdr a).is_free) ∧
      s1.mem = s.mem ∧ s1.base = s.base ∧ s1.limit = s.limit := by
  have hbb := inv_block_bounds hinv hb
  have hlt : b + HEADER_SIZE < WORD := by
    simp only [HEADER_SIZE, WORD] at *; omega
  have hpa : ptr_add (payload b) (s.hdr b).size = b + HEADER_SIZE + (s.hdr b).size := by
    rw [payload_eq hlt]
    unfold ptr_add
    apply Nat.mod_eq_of_lt
    simp only [HEADER_SIZE, WORD] at *; omega
  rw [hpa] at htop
  obtain ⟨pre, rfl⟩ := inv_top_is_last hinv hb htop
  have hnd := inv_nodup hinv
  have hbpre : b ∉ pre := fun hm =>
    (List.nodup_append.1 hnd).2.2 hm (List.mem_singleton_self b)
  obtain ⟨⟨hc, htl, hlk⟩, hcg, hbase, hlim, hlim2⟩ := hinv
  rw [List.getLastD_concat] at htl
  have hfree := @free_tail_eq fuel s pre b hc htl hnd hlk (by simp at hf; omega) hlt (by rw [hpa]; exact htop)
  obtain ⟨hu1, hu2, hu3, hu4, hu5, hu6, hu7⟩ := unlinked_frame s pre
  -- the word passed to `sbrk`
  have hδ : (WORD + WORD - HEADER_SIZE - (s.hdr b).size) % WORD
      = WORD - (HEADER_SIZE + (s.hdr b).size) := by
    simp only [HEADER_SIZE, WORD] at *; omega
  have hδ63 : ¬ (WORD - (HEADER_SIZE + (s.hdr b).size) < 2 ^ 63) := by
    simp only [HEADER_SIZE, WORD] at *; omega
  have hδ0 : WORD - (HEADER_SIZE + (s.hdr b).size) ≠ 0 := by
    simp only [HEADER_SIZE, WORD] at *; omega
  rw [contig_snoc] at hcg
  have hbrk : (sbrk (unlinked s pre) (WORD - (HEADER_SIZE + (s.hdr b).size))).2
      = { unlinked s pre with brk := b } := by
    have hden : sbrk_denied (unlinked s pre) (WORD - (HEADER_SIZE + (s.hdr b).size)) = false := by
      unfold sbrk_denied
      rw [if_neg hδ0, if_neg hδ63, hu2, hu3]
      simp only [decide_eq_false_iff_not, not_lt, HEADER_SIZE, WORD] at *
      omega
    unfold sbrk
    rw [hden]
    simp only [Bool.false_eq_true, if_false, hδ63, hu2]
    congr 1
    simp only [HEADER_SIZE, WORD] at *
    omega
  rw [hδ, hbrk] at hfree
  refine ⟨_, pre, hfree, rfl, hbpre, ?_, ?_, ?_, ?_, ?_, hu7, hu1, hu3, hu4⟩
  · rw [hδ]
    unfold intptr
    rw [if_neg hδ63]
    simp only [HEADER_SIZE, WORD] at *
    omega
  · dsimp only
    omega
  · refine ⟨⟨chain_unlinked hc hnd, hu6, by rw [← hlk]; exact hu5⟩, ?_, ?_, ?_, ?_⟩
    · dsimp only
      rw [hu3]
      exact contig_congr pre _ _ (fun a _ => (hu7 a).1) hcg.1
    · dsimp only
      rw [hu3]; exact hbase
    · dsimp only
      rw [hu4]; omega
    · dsimp only
      rw [hu4]; exact hlim2
  · rintro rfl
    simp [unlinked]
  · rintro pre2 q rfl
    have hc2 : Chain s.hdr s.head (pre2 ++ [q, b]) := by
      rw [List.append_assoc] at hc; exact hc
    have hqb : (s.hdr q).next = b := chain_last_link pre2 _ hc2
    simp [unlinked, List.getLastD_concat, set_next, hqb]

theorem appended_new (hdr : Nat → header_t) (tail p size : Nat) :
    (appended hdr tail p size p).size = size ∧ (appended hdr tail p size p).is_free = 0 := by
  unfold appended
  split_ifs <;> simp only [set_next, set_is_free, set_size] <;> constructor <;>
    (repeat' split) <;> simp_all

theorem appended_frame (hdr : Nat → header_t) (tail p size : Nat) {a : Nat} (ha : a ≠ p) :
    (appended hdr tail p size a).size = (hdr a).size ∧
    (appended hdr tail p size a).is_free = (hdr a).is_free := by
  unfold appended
  split_ifs <;> simp only [set_next, set_is_free, set_size] <;> constructor <;>
    (repeat' split) <;> simp_all

theorem chain_last_null {hdr : Nat → header_t} {q : Nat} :
    ∀ (l : List Nat) (p : Nat), Chain hdr p (l ++ [q]) → (hdr q).next = NULL ∧ q ≠ NULL
  | [], _, h => ⟨h.2.2, h.2.1⟩
  | _ :: l, _, h => chain_last_null l _ h.2.2

/-- The chain after `malloc` has appended a new header `p`. -/
theorem chain_appended {hdr : Nat → header_t} {head tail p : Nat} (size : Nat) {l : List Nat}
    (hc : Chain hdr head l) (htail : tail = l.getLastD NULL) (hnd : l.Nodup) (hp : p ∉ l)
    (hp0 : p ≠ NULL) :
    Chain (appended hdr tail p size) (if head = NULL then p else head) (l ++ [p]) := by
  rcases list_snoc_cases l with rfl | ⟨pre, q, rfl⟩
  · have h0 : head = NULL := hc
    have ht : tail = NULL := htail
    subst h0 ht
    simp [appended, Chain, hp0, set_next]
  · rw [List.getLastD_concat] at htail
    subst htail
    have hq := chain_last_null pre _ hc
    have hpq : p ≠ tail := fun e => hp (by simp [e])
    have hh : head ≠ NULL := by
      cases pre with
      | nil => rw [chain_head hc]; exact hq.2
      | cons a pre => rw [chain_head hc]; exact hc.2.1
    rw [if_neg hh, List.append_assoc]
    have hqpre : tail ∉ pre := fun hm =>
      (List.nodup_append.1 hnd).2.2 hm (List.mem_singleton_self tail)
    refine chain_append_new hpq hp0 ?_ ?_ ?_ pre head hc hqpre (fun hm => hp (List.mem_append_left _ hm))
    · simp [appended, hq.2, set_next]
    · simp [appended, hq.2, set_next, hpq]
    · intro a ha1 ha2
      simp [appended, hq.2, set_next, set_is_free, set_size, ha1, ha2]

/-- The test of `free` on a block that `malloc` has just created at the break:
its payload end, computed in words, is the new break. -/
theorem sbrk_grow_top {s : State} {n : Nat} (hn : n < WORD) (hlim : s.brk ≤ s.limit)
    (hlim2 : s.limit < 2 ^ 63)
    (hd : sbrk_denied s ((HEADER_SIZE + n) % WORD) = false) :
    ptr_add (payload s.brk) n = (sbrk s ((HEADER_SIZE + n) % WORD)).2.brk := by
  unfold sbrk
  rw [hd]
  unfold sbrk_denied at hd
  unfold ptr_add payload ptr_add
  by_cases h0 : (HEADER_SIZE + n) % WORD = 0
  · rw [h0]
    simp only [Bool.false_eq_true, if_false]
    rw [if_pos (by norm_num)]
    simp only [HEADER_SIZE, WORD] at *
    omega
  · rw [if_neg h0] at hd
    by_cases h63 : (HEADER_SIZE + n) % WORD < 2 ^ 63
    · rw [if_pos h63] at hd
      rw [if_neg (by simp), if_pos h63]
      simp only [decide_eq_false_iff_not, not_lt, HEADER_SIZE, WORD] at *
      omega
    · rw [if_neg h63] at hd
      rw [if_neg (by simp), if_neg h63]
      simp only [decide_eq_false_iff_not, not_lt, HEADER_SIZE, WORD] at *
      omega

/-- The call `sbrk(0 - sizeof(header_t) - n)` takes back what
`sbrk(sizeof(header_t) + n)` has just given. -/
theorem sbrk_back {s u : State} {n : Nat} (hn : n < WORD) (hb0 : s.base ≤ s.brk)
    (hlim : s.brk ≤ s.limit) (hlim2 : s.limit < 2 ^ 63)
    (hd : sbrk_denied s ((HEADER_SIZE + n) % WORD) = false)
    (hu1 : u.brk = (sbrk s ((HEADER_SIZE + n) % WORD)).2.brk) (hu2 : u.base = s.base)
    (hu3 : u.limit = s.limit) :
    (sbrk u ((WORD + WORD - HEADER_SIZE - n) % WORD)).2 = { u with brk := s.brk } := by
  have hbrk := sbrk_brk_signed (Nat.mod_lt _ (by decide : 0 < WORD)) hd
  rw [← hu1] at hbrk
  unfold sbrk_denied at hd
  unfold intptr at hbrk
  have key : (sbrk u ((WORD + WORD - HEADER_SIZE - n) % WORD)).2.brk = s.brk := by
    unfold sbrk sbrk_denied
    rw [hu2, hu3]
    by_cases h0 : (HEADER_SIZE + n) % WORD = 0
    · have : (WORD + WORD - HEADER_SIZE - n) % WORD = 0 := by
        simp only [HEADER_SIZE, WORD] at *; omega
      rw [this]
      rw [h0] at hbrk
      simp at hbrk ⊢
      omega
    · rw [if_neg h0] at hd
      by_cases h63 : (HEADER_SIZE + n) % WORD < 2 ^ 63
      · rw [if_pos h63] at hd hbrk
        have h1 : ¬ (WORD + WORD - HEADER_SIZE - n) % WORD < 2 ^ 63 := by
          simp only [HEADER_SIZE, WORD] at *; omega
        have h2 : (WORD + WORD - HEADER_SIZE - n) % WORD ≠ 0 := by
          simp only [HEADER_SIZE, WORD] at *; omega
        rw [if_neg h2, if_neg h1]
        have h3 : ¬ (u.brk < s.base + (WORD - (WORD + WORD - HEADER_SIZE - n) % WORD)) := by
          simp only [decide_eq_false_iff_not, not_lt, HEADER_SIZE, WORD] at *; omega
        rw [decide_eq_false h3]
        simp only [Bool.false_eq_true, if_false, h1]
        simp only [decide_eq_false_iff_not, not_lt, HEADER_SIZE, WORD] at *
        omega
      · rw [if_neg h63] at hd hbrk
        have h1 : (WORD + WORD - HEADER_SIZE - n) % WORD < 2 ^ 63 := by
          simp only [decide_eq_false_iff_not, not_lt, HEADER_SIZE, WORD] at *; omega
        have h2 : (WORD + WORD - HEADER_SIZE - n) % WORD ≠ 0 := by
          simp only [HEADER_SIZE, WORD] at *; omega
        rw [if_neg h2, if_pos h1]
        have h3 : ¬ (s.limit < u.brk + (WORD + WORD - HEADER_SIZE - n) % WORD) := by
          simp only [decide_eq_false_iff_not, not_lt, HEADER_SIZE, WORD] at *; omega
        rw [decide_eq_false h3]
        simp only [Bool.false_eq_true, if_false, h1, if_true]
        simp only [decide_eq_false_iff_not, not_lt, HEADER_SIZE, WORD] at *
        omega
  rw [sbrk_frame, key]

theorem first_fit_mem_pre {hdr : Nat → header_t} {size : Nat} :
    ∀ (pre l : List Nat) (a : Nat), a ∈ pre → fits hdr size a →
      first_fit hdr size (pre ++ l) ∈ pre
  | [], _, a, ha, _ => by simp at ha
  | b :: pre, l, a, ha, hf => by
    show first_fit hdr size (b :: (pre ++ l)) ∈ _
    rw [first_fit_cons]
    by_cases hb : fits hdr size b
    · rw [if_pos hb]; exact List.mem_cons_self b pre
    · rw [if_neg hb]
      rcases List.mem_cons.1 ha with rfl | ha
      · exact absurd hf hb
      · exact List.mem_cons_of_mem b (first_fit_mem_pre pre l a ha hf)

/-- Free, then allocate again, a block that the scan of `malloc` had found. -/
theorem reuse_after_hit {fuel : Nat} {s : State} {l : List Nat} {n r : Nat}
    (hinv : Inv s l) (hn : 0 < n) (hf : l.length < fuel)
    (hr : first_fit s.hdr n l = r) (hr0 : r ≠ NULL) :
    ∃ s2 s3, free fuel { s with hdr := set_is_free s.hdr r 0 } (payload r) = some s2 ∧
      malloc fuel s2 n = some (payload r, s3) ∧ (s3.hdr r).is_free = 0 ∧
      (ptr_add (payload r) (s.hdr r).size ≠ s.brk →
        get_free_block fuel s2 n = some r ∧ s2.brk = s.brk ∧ s3.brk = s.brk ∧
        Registry s2 l ∧ (s2.hdr r).is_free = 1) ∧
      (ptr_add (payload r) (s.hdr r).size = s.brk →
        get_free_block fuel s2 n = some NULL ∧ s2.brk = r ∧
        ∃ pre, l = pre ++ [r] ∧ r ∉ pre ∧ Registry s2 pre ∧ s3.tail = r ∧
          (s3.hdr r).size = n) := by
  have hn0 : n ≠ 0 := by omega
  obtain ⟨pre, post, hl, hrl, hfit, hpre⟩ : ∃ pre post, l = pre ++ r :: post ∧ r ∈ l ∧
      fits s.hdr n r ∧ ∀ a ∈ pre, ¬ fits s.hdr n a := by
    rcases first_fit_spec s.hdr n l with ⟨h1, _⟩ | h
    · exact absurd (hr ▸ h1) hr0
    · rw [hr] at h; exact h
  have hinv1 : Inv { s with hdr := set_is_free s.hdr r 0 } l := inv_set_is_free hinv r 0
  have hbb := inv_block_bounds hinv hrl
  have hlt : r + HEADER_SIZE < WORD := by
    simp only [HEADER_SIZE, WORD] at *; omega
  have hh : header_of (payload r) = r := header_of_payload hlt
  have hsz1 : (set_is_free s.hdr r 0 r).size = (s.hdr r).size := by simp [set_is_free]
  by_cases htop : ptr_add (payload r) (s.hdr r).size = s.brk
  · -- the block is the top of the region: it is given back and created again
    obtain ⟨s2, pre2, hfree, hl2, hrpre, _, hbrk, hinv2, _, _, hfr, _, hbase2, hlim2⟩ :=
      free_top_spec fuel _ l r hinv1 hrl (by rw [hsz1]; exact htop) hf
    have hbrk2 : s2.brk = r := by
      have : r + HEADER_SIZE + (s.hdr r).size = s.brk := by
        have hpa : ptr_add (payload r) (s.hdr r).size = r + HEADER_SIZE + (s.hdr r).size := by
          rw [payload_eq hlt]
          unfold ptr_add
          apply Nat.mod_eq_of_lt
          simp only [HEADER_SIZE, WORD] at *; omega
        rw [← hpa]; exact htop
      rw [hsz1] at hbrk
      have hb' : s2.brk + (HEADER_SIZE + (s.hdr r).size) = s.brk := hbrk
      omega
    have hmiss : first_fit s2.hdr n pre2 = NULL := by
      apply first_fit_eq_null
      intro a ha hfa
      have har : a ≠ r := fun e => hrpre (e ▸ ha)
      have hfa2 : fits s.hdr n a := by
        have h1 := hfr a
        simp only [set_is_free, if_neg har] at h1
        unfold fits at hfa ⊢
        rw [← h1.1, ← h1.2]; exact hfa
      have := first_fit_mem_pre pre2 [r] a ha hfa2
      rw [← hl2, hr] at this
      exact hrpre this
    have hg : get_free_block fuel s2 n = some NULL := by
      rw [← hmiss]
      exact get_free_block_loop_eq n pre2 _ fuel hinv2.1.1 (by rw [hl2] at hf; simp at hf; omega)
    have hnr : n ≤ (s.hdr r).size := hfit.2
    have hT : (HEADER_SIZE + n) % WORD = HEADER_SIZE + n := by
      apply Nat.mod_eq_of_lt
      simp only [HEADER_SIZE, WORD] at *; omega
    have hden : sbrk_denied s2 ((HEADER_SIZE + n) % WORD) = false := by
      have hlimit : s.brk ≤ s.limit := hinv.2.2.2.1
      have hl2' : s2.limit = s.limit := hlim2
      unfold sbrk_denied
      rw [hT, if_neg (by simp only [HEADER_SIZE]; omega),
        if_pos (by simp only [HEADER_SIZE, WORD] at *; omega), hbrk2, hl2']
      simp only [decide_eq_false_iff_not, not_lt, HEADER_SIZE, WORD] at *
      omega
    have hb2 : s2.brk ≠ SBRK_FAILED := by
      rw [hbrk2]; simp only [SBRK_FAILED, HEADER_SIZE, WORD] at *; omega
    have hm2 := malloc_grow hn0 hinv2.1.2.2 hg hden hb2
    rw [hbrk2] at hm2
    refine ⟨s2, _, hfree, hm2, (appended_new _ _ _ _).2, fun h => absurd htop h,
      fun _ => ⟨hg, hbrk2, pre2, hl2, hrpre, hinv2.1, rfl, (appended_new _ _ _ _).1⟩⟩
  · -- the block is inside the region: only its flag changes, twice
    obtain ⟨s1, hs1⟩ : ∃ s1 : State, s1 = { s with hdr := set_is_free s.hdr r 0 } := ⟨_, rfl⟩
    rw [← hs1] at hinv1 ⊢
    have hhdr : s1.hdr = set_is_free s.hdr r 0 := by rw [hs1]
    have hbrk1 : s1.brk = s.brk := by rw [hs1]
    have hsz : (s1.hdr r).size = (s.hdr r).size := by rw [hhdr]; exact hsz1
    obtain ⟨s2, hfree, hs2, hnext⟩ := free_interior_spec fuel s1 l r hinv1 hrl
      (by rw [hsz, hbrk1]; exact htop)
    obtain ⟨r2, pre2, post2, s3, _, _, _, hrb, hg, _, hm2, hs3, hb3⟩ :=
      hnext n fuel hn (by rw [hsz]; exact hfit.2) hf
    have hr2 : r2 = r := by
      apply hrb pre post hl
      intro a ha hfa
      have har : a ≠ r := fun e => hpre a ha (e ▸ hfit)
      apply hpre a ha
      rw [hs2] at hfa
      simp only [hhdr, set_is_free, if_neg har] at hfa
      exact hfa
    subst hr2
    refine ⟨s2, s3, hfree, hm2, by rw [hs3]; simp [set_is_free],
      fun _ => ⟨hg, ?_, ?_, ?_, ?_⟩, fun h => absurd h htop⟩
    · rw [hs2]; exact hbrk1
    · rw [hb3]; exact hbrk1
    · rw [hs2]; exact (inv_set_is_free hinv1 _ 1).1
    · rw [hs2]; simp [set_is_free]

/-- Free, then allocate again, a block that `malloc` had created at the break. -/
theorem reuse_after_grow {fuel : Nat} {s s1 : State} {l : List Nat} {n : Nat}
    (hinv : Inv s l) (hn : 0 < n) (hnw : n < WORD) (hf : l.length < fuel)
    (hmiss : first_fit s.hdr n l = NULL)
    (hd : sbrk_denied s ((HEADER_SIZE + n) % WORD) = false)
    (hs1 : s1 = { s with hdr := appended s.hdr s.tail s.brk n,
                         head := if s.head = NULL then s.brk else s.head,
                         tail := s.brk,
                         brk := (sbrk s ((HEADER_SIZE + n) % WORD)).2.brk }) :
    ∃ s2 s3, free fuel s1 (payload s.brk) = some s2 ∧
      malloc fuel s2 n = some (payload s.brk, s3) ∧ (s3.hdr s.brk).is_free = 0 ∧
      ptr_add (payload s.brk) (s1.hdr s.brk).size = s1.brk ∧
      get_free_block fuel s2 n = some NULL ∧ s2.brk = s.brk ∧
      Registry s1 (l ++ [s.brk]) ∧ s.brk ∉ l ∧ Registry s2 l ∧ s3.tail = s.brk ∧
      (s3.hdr s.brk).size = n := by
  have hn0 : n ≠ 0 := by omega
  obtain ⟨hb0, hb63, hbpos⟩ := inv_brk hinv
  obtain ⟨⟨hc, htl, hlk⟩, hcg, hbase, hlim, hlim2⟩ := hinv
  have hnd : l.Nodup := contig_nodup l _ _ hcg
  have hBl : s.brk ∉ l := contig_not_mem_end hcg
  have hB0 : s.brk ≠ NULL := by simp only [NULL]; omega
  have hw : s.brk + HEADER_SIZE < WORD := by simp only [HEADER_SIZE, WORD]; omega
  -- the state after the first `malloc`
  have e_hdr : s1.hdr = appended s.hdr s.tail s.brk n := by rw [hs1]
  have e_head : s1.head = if s.head = NULL then s.brk else s.head := by rw [hs1]
  have e_tail : s1.tail = s.brk := by rw [hs1]
  have e_brk : s1.brk = (sbrk s ((HEADER_SIZE + n) % WORD)).2.brk := by rw [hs1]
  have e_base : s1.base = s.base := by rw [hs1]
  have e_limit : s1.limit = s.limit := by rw [hs1]
  have e_lock : s1.lock = s.lock := by rw [hs1]
  have hc1 : Chain s1.hdr s1.head (l ++ [s.brk]) := by
    rw [e_hdr, e_head]
    exact chain_appended n hc htl hnd hBl hB0
  have hnd1 : (l ++ [s.brk]).Nodup := by
    rw [List.nodup_append]
    refine ⟨hnd, List.nodup_singleton _, ?_⟩
    intro a ha hb
    rw [List.mem_singleton] at hb
    exact hBl (hb ▸ ha)
  have hsz1 : (s1.hdr s.brk).size = n := by rw [e_hdr]; exact (appended_new _ _ _ _).1
  have htop : ptr_add (payload s.brk) (s1.hdr s.brk).size = s1.brk := by
    rw [hsz1, e_brk]
    exact sbrk_grow_top hnw hlim hlim2 hd
  have hfree := free_tail_eq hc1 e_tail hnd1 (e_lock.trans hlk) hf hw htop
  rw [hsz1] at hfree
  obtain ⟨hu1, hu2, hu3, hu4, hu5, hu6, hu7⟩ := unlinked_frame s1 l
  have hback := @sbrk_back s (unlinked s1 l) n hnw hb0 hlim hlim2 hd (hu2.trans e_brk)
    (hu3.trans e_base) (hu4.trans e_limit)
  rw [hback] at hfree
  -- the state after `free`
  obtain ⟨s2, hs2⟩ : ∃ s2 : State, s2 = { unlinked s1 l with brk := s.brk } := ⟨_, rfl⟩
  rw [← hs2] at hfree
  have f_hdr : s2.hdr = (unlinked s1 l).hdr := by rw [hs2]
  have f_head : s2.head = (unlinked s1 l).head := by rw [hs2]
  have f_brk : s2.brk = s.brk := by rw [hs2]
  have f_base : s2.base = s.base := by rw [hs2]; exact hu3.trans e_base
  have f_limit : s2.limit = s.limit := by rw [hs2]; exact hu4.trans e_limit
  have f_lock : s2.lock = false := by rw [hs2]; exact (hu5.trans e_lock).trans hlk
  have hc2 : Chain s2.hdr s2.head l := by
    rw [f_hdr, f_head]
    exact chain_unlinked hc1 hnd1
  have hmiss2 : first_fit s2.hdr n l = NULL := by
    rw [← hmiss]
    apply first_fit_congr
    intro a ha
    have haB : a ≠ s.brk := fun e => hBl (e ▸ ha)
    have h1 := hu7 a
    have h2 := appended_frame s.hdr s.tail s.brk n haB
    unfold fits
    rw [f_hdr, h1.1, h1.2, e_hdr, h2.1, h2.2]
  have hg : get_free_block fuel s2 n = some NULL := by
    rw [← hmiss2]
    exact get_free_block_loop_eq n l _ fuel hc2 hf
  have hden2 : sbrk_denied s2 ((HEADER_SIZE + n) % WORD) = false := by
    rw [← hd]
    unfold sbrk_denied
    rw [f_brk, f_base, f_limit]
  have hb2 : s2.brk ≠ SBRK_FAILED := by
    rw [f_brk]; simp only [SBRK_FAILED, WORD]; omega
  have hm2 := malloc_grow hn0 f_lock hg hden2 hb2
  rw [f_brk] at hm2
  have f_tail : s2.tail = l.getLastD NULL := by rw [hs2]; exact hu6
  exact ⟨s2, _, hfree, hm2, (appended_new _ _ _ _).2, htop, hg, f_brk,
    ⟨hc1, by rw [e_tail, List.getLastD_concat], e_lock.trans hlk⟩, hBl,
    ⟨hc2, f_tail, f_lock⟩, rfl, (appended_new _ _ _ _).1⟩

/-! ## The claims about sequences of calls, and the concrete runs -/

/-- C1 (failing input): on the empty allocator `init` (break `4096`, room up to
`8192`) the call `malloc(2^64 - 24)` computes `total_size = 0`, so `sbrk` is
not asked to grow and does not deny; `malloc` does not return `NULL` but the
payload pointer `4120` of a header it wrote at the break `4096`, with recorded
size `2^64 - 24`, while the break is still `4096`: the block lies outside the
managed region `[base, brk]`. -/
theorem malloc_total_size_wraps :
    Fresh init ∧ Inv init [] ∧ (HEADER_SIZE + (WORD - 24)) % WORD = 0 ∧
    sbrk_denied init ((HEADER_SIZE + (WORD - 24)) % WORD) = false ∧
    ptrOf (malloc 1 init (WORD - 24)) = some 4120 ∧
    (stateOf (malloc 1 init (WORD - 24))).head = 4096 ∧
    ((stateOf (malloc 1 init (WORD - 24))).hdr 4096).size = WORD - 24 ∧
    ((stateOf (malloc 1 init (WORD - 24))).hdr 4096).is_free = 0 ∧
    (stateOf (malloc 1 init (WORD - 24))).base = 4096 ∧
    (stateOf (malloc 1 init (WORD - 24))).brk = 4096 ∧
    (stateOf (malloc 1 init (WORD - 24))).brk < 4120 := by
  decide

/-- C3 (counterexample): on the empty allocator `init`, `malloc(8)` returns
`4120`; after `free(4120)` the registry is empty and the break is back at
`4096`; the second `malloc(8)` returns `4120` again, but its scan finds nothing
(`get_free_block` returns `NULL`) and it moves the break from `4096` to `4128`:
it is not a first-fit hit and it grows the region. -/
theorem malloc_free_malloc_regrows :
    Fresh init ∧ Inv init [] ∧ ptrOf (malloc 5 init 8) = some 4120 ∧
    (free 5 one_block 4120).isSome = true ∧
    get_free_block 5 top_freed 8 = some NULL ∧
    ptrOf (malloc 5 top_freed 8) = some 4120 ∧
    top_freed.brk = 4096 ∧ (stateOf (malloc 5 top_freed 8)).brk = 4128 ∧
    (stateOf (malloc 5 top_freed 8)).brk ≠ top_freed.brk := by
  decide

/-- The sequence `malloc(n)`, `free`, `malloc(n)` on a state that satisfies the
invariant: the same address comes back; a block inside the region is reused by
the scan, a block at the top of the region is unlinked by `free`, which sets the
break to its header, and is created again at the break. -/
theorem malloc_free_malloc_spec {fuel : Nat} {s s1 : State} {l : List Nat} {n p : Nat}
    (hinv : Inv s l) (hn : 0 < n) (hnw : n < WORD) (hf : l.length < fuel)
    (hm : malloc fuel s n = some (p, s1)) (hp : p ≠ NULL) :
    ∃ l1 s2 s3, Registry s1 l1 ∧ header_of p ∈ l1 ∧ free fuel s1 p = some s2 ∧
      malloc fuel s2 n = some (p, s3) ∧ (s3.hdr (header_of p)).is_free = 0 ∧
      (ptr_add p (s1.hdr (header_of p)).size ≠ s1.brk →
        Registry s2 l1 ∧ (s2.hdr (header_of p)).is_free = 1 ∧
        get_free_block fuel s2 n = some (header_of p) ∧ header_of p ≠ NULL ∧
        s2.brk = s1.brk ∧ s3.brk = s1.brk) ∧
      (ptr_add p (s1.hdr (header_of p)).size = s1.brk →
        ∃ pre, l1 = pre ++ [header_of p] ∧ header_of p ∉ pre ∧ Registry s2 pre ∧
          s2.brk = header_of p ∧ get_free_block fuel s2 n = some NULL ∧
          payload s2.brk = p ∧ s3.tail = header_of p ∧
          (s3.hdr (header_of p)).size = n) := by
  have hn0 : n ≠ 0 := by omega
  have hg := get_free_block_loop_eq n l _ fuel hinv.1.1 hf
  obtain ⟨hb0, hb63, hbpos⟩ := inv_brk hinv
  by_cases hr0 : first_fit s.hdr n l = NULL
  · -- the scan of the first `malloc` found nothing
    have hg0 : get_free_block fuel s n = some NULL := by rw [← hr0]; exact hg
    by_cases hd : sbrk_denied s ((HEADER_SIZE + n) % WORD) = true
    · rw [malloc_denied hn0 hinv.1.2.2 hg0 hd] at hm
      simp only [Option.some.injEq, Prod.mk.injEq] at hm
      exact absurd hm.1.symm hp
    · have hd : sbrk_denied s ((HEADER_SIZE + n) % WORD) = false := by
        simpa using hd
      have hbf : s.brk ≠ SBRK_FAILED := by simp only [SBRK_FAILED, WORD]; omega
      rw [malloc_grow hn0 hinv.1.2.2 hg0 hd hbf] at hm
      simp only [Option.some.injEq, Prod.mk.injEq] at hm
      obtain ⟨hp1, hs1⟩ := hm
      have hw : s.brk + HEADER_SIZE < WORD := by simp only [HEADER_SIZE, WORD]; omega
      have hh : header_of p = s.brk := by rw [← hp1]; exact header_of_payload hw
      obtain ⟨s2, s3, h1, h2, h3, h4, h5, h6, h7, h8, h9, h10, h11⟩ :=
        @reuse_after_grow fuel s s1 l n hinv hn hnw hf hr0 hd hs1.symm
      rw [hh, ← hp1]
      exact ⟨l ++ [s.brk], s2, s3, h7, by simp, h1, h2, h3, fun h => absurd h4 h,
        fun _ => ⟨l, rfl, h8, h9, h6, h5, by rw [h6], h10, h11⟩⟩
  · -- the scan of the first `malloc` found the block `first_fit s.hdr n l`
    rw [malloc_hit hn0 hinv.1.2.2 hg hr0] at hm
    simp only [Option.some.injEq, Prod.mk.injEq] at hm
    obtain ⟨hp1, hs1⟩ := hm
    have hrl : first_fit s.hdr n l ∈ l := by
      rcases first_fit_mem_or_null s.hdr n l with h | h
      · exact absurd h hr0
      · exact h
    have hbb := inv_block_bounds hinv hrl
    have hw : first_fit s.hdr n l + HEADER_SIZE < WORD := by
      simp only [HEADER_SIZE, WORD] at *; omega
    have hh : header_of p = first_fit s.hdr n l := by rw [← hp1]; exact header_of_payload hw
    obtain ⟨s2, s3, h1, h2, h3, h4, h5⟩ := reuse_after_hit hinv hn hf rfl hr0
    have hsz : (s1.hdr (first_fit s.hdr n l)).size = (s.hdr (first_fit s.hdr n l)).size := by
      rw [← hs1]; simp [set_is_free]
    have hbrk : s1.brk = s.brk := by rw [← hs1]
    have hreg1 : Registry s1 l := by
      rw [← hs1]; exact (inv_set_is_free hinv (first_fit s.hdr n l) 0).1
    rw [hh, hsz, hbrk, ← hp1]
    rw [← hs1] at hreg1 ⊢
    refine ⟨l, s2, s3, hreg1, hrl, h1, h2, h3, fun h => ?_, fun h => ?_⟩
    · obtain ⟨a, b, c, d, e⟩ := h4 h
      exact ⟨d, e, a, hr0, b, c⟩
    · obtain ⟨a, b, pre, c, d, e, f, g⟩ := h5 h
      exact ⟨pre, c, d, e, b, a, by rw [b], f, g⟩

/-- C4: for a state that satisfies the invariant (as every reachable state does)
and a block `b` of the registry whose payload does not end at the break, `free` of `b`'s payload returns and
changes nothing except `b`'s flag, which becomes `1`: break, `head`, `tail`,
links, sizes and bytes are as before.  For every `n` with `0 < n <= b.size` the
next `malloc(n)` then hits in the scan: it returns the payload of the first block
`r` in chain order that is free with `size >= n` (which is `b` when no block
before `b` qualifies), clears that flag and leaves the break where it was. -/
theorem free_interior_then_malloc (fuel : Nat) (s : State) (l : List Nat) (b : Nat)
    (hinv : Inv s l) (hb : b ∈ l)
    (hnt : ptr_add (payload b) (s.hdr b).size ≠ s.brk) :
    ∃ s1, free fuel s (payload b) = some s1 ∧
      s1 = { s with hdr := set_is_free s.hdr b 1 } ∧
      ∀ n fuel2, 0 < n → n ≤ (s.hdr b).size → l.length < fuel2 →
        ∃ r pre post s2, l = pre ++ r :: post ∧
          ((s1.hdr r).is_free ≠ 0 ∧ (s1.hdr r).size ≥ n) ∧
          (∀ a ∈ pre, ¬ ((s1.hdr a).is_free ≠ 0 ∧ (s1.hdr a).size ≥ n)) ∧
          (∀ pre2 post2, l = pre2 ++ b :: post2 →
            (∀ a ∈ pre2, ¬ ((s1.hdr a).is_free ≠ 0 ∧ (s1.hdr a).size ≥ n)) → r = b) ∧
          get_free_block fuel2 s1 n = some r ∧ r ≠ NULL ∧
          malloc fuel2 s1 n = some (payload r, s2) ∧
          s2 = { s1 with hdr := set_is_free s1.hdr r 0 } ∧ s2.brk = s.brk :=
  free_interior_spec fuel s l b hinv hb hnt

/-- C10 (counterexample): in the state `one_block` the pointer `4120` is live
(returned by `malloc(8)`, flag `0`, recorded size `8`), and `0 <= 8`, but
`realloc(4120, 0)` returns `NULL`, not `4120`. -/
theorem realloc_zero_returns_null :
    ptrOf (malloc 5 init 8) = some 4120 ∧
    (one_block.hdr (header_of 4120)).is_free = 0 ∧
    (one_block.hdr (header_of 4120)).size = 8 ∧ 0 ≤ (one_block.hdr (header_of 4120)).size ∧
    ptrOf (realloc 5 one_block 4120 0) = some NULL ∧ NULL ≠ 4120 := by
  decide

/-! ## The theorems at concrete inputs -/

/-- The scan on `first_freed` with request `8`: the chain is `[4096, 4128]`. -/
theorem get_free_block_first_fit_witness :
    Chain first_freed.hdr first_freed.head [4096, 4128] ∧ [4096, 4128].length < 5 ∧
    ∃ r, get_free_block 5 first_freed 8 = some r ∧
      ((∃ pre post, [4096, 4128] = pre ++ r :: post ∧ r ≠ NULL ∧
          ((first_freed.hdr r).is_free ≠ 0 ∧ (first_freed.hdr r).size ≥ 8) ∧
          ∀ a ∈ pre, ¬ ((first_freed.hdr a).is_free ≠ 0 ∧ (first_freed.hdr a).size ≥ 8)) ∨
        (r = NULL ∧ ∀ a ∈ [4096, 4128],
          ¬ ((first_freed.hdr a).is_free ≠ 0 ∧ (first_freed.hdr a).size ≥ 8))) ∧
      (r = NULL ↔ ∀ a ∈ [4096, 4128],
        ¬ ((first_freed.hdr a).is_free ≠ 0 ∧ (first_freed.hdr a).size ≥ 8)) :=
  ⟨by decide, by decide,
    get_free_block_first_fit 5 first_freed 8 [4096, 4128] (by decide) (by decide)⟩

/-- The call `free` on the first block of `two_blocks`, then `malloc`. -/
theorem free_interior_then_malloc_witness :
    Inv two_blocks [4096, 4128] ∧ 4096 ∈ [4096, 4128] ∧
    ptr_add (payload 4096) (two_blocks.hdr 4096).size ≠ two_blocks.brk ∧
    ∃ s1, free 5 two_blocks (payload 4096) = some s1 ∧
      s1 = { two_blocks with hdr := set_is_free two_blocks.hdr 4096 1 } ∧
      ∀ n fuel2, 0 < n → n ≤ (two_blocks.hdr 4096).size → [4096, 4128].length < fuel2 →
        ∃ r pre post s2, [4096, 4128] = pre ++ r :: post ∧
          ((s1.hdr r).is_free ≠ 0 ∧ (s1.hdr r).size ≥ n) ∧
          (∀ a ∈ pre, ¬ ((s1.hdr a).is_free ≠ 0 ∧ (s1.hdr a).size ≥ n)) ∧
          (∀ pre2 post2, [4096, 4128] = pre2 ++ 4096 :: post2 →
            (∀ a ∈ pre2, ¬ ((s1.hdr a).is_free ≠ 0 ∧ (s1.hdr a).size ≥ n)) → r = 4096) ∧
          get_free_block fuel2 s1 n = some r ∧ r ≠ NULL ∧
          malloc fuel2 s1 n = some (payload r, s2) ∧
          s2 = { s1 with hdr := set_is_free s1.hdr r 0 } ∧ s2.brk = two_blocks.brk :=
  ⟨by decide, by decide, by decide,
    free_interior_then_malloc 5 two_blocks [4096, 4128] 4096 (by decide) (by decide)
      (by decide)⟩

/-- The call `malloc(8)` on a platform with four bytes of room. -/
theorem malloc_denied_unchanged_witness :
    0 < 8 ∧ Registry no_room [] ∧ ([] : List Nat).length < 5 ∧
    sbrk_denied no_room ((HEADER_SIZE + 8) % WORD) = true ∧
    malloc 5 no_room 8 = some (NULL, no_room) :=
  ⟨by decide, by decide, by decide, by decide,
    malloc_denied_unchanged 5 no_room 8 [] (by decide) (by decide) (by decide)
      (fun a ha => absurd ha (List.not_mem_nil a)) (by decide)⟩

/-- The test of `calloc` on `2^63 * 2`, which does not fit in a word. -/
theorem calloc_overflow_check_witness :
    0 < 2 ^ 63 ∧ 0 < 2 ∧ (2 ≠ (2 ^ 63 * 2) % WORD / 2 ^ 63 ↔ WORD ≤ 2 ^ 63 * 2) ∧
    (WORD ≤ 2 ^ 63 * 2 → ∀ fuel s, calloc fuel s (2 ^ 63) 2 = some (NULL, s)) :=
  ⟨by decide, by decide, (calloc_overflow_check (2 ^ 63) 2 (by decide) (by decide)).1,
    (calloc_overflow_check (2 ^ 63) 2 (by decide) (by decide)).2.1⟩

/-- The call `calloc(2, 4)` on `first_freed`, which reuses the block at `4096`
whose bytes are `7`. -/
theorem calloc_zeroed_witness :
    Registry first_freed [4096, 4128] ∧ [4096, 4128].length < 5 ∧
    first_freed.mem 4120 = 7 ∧ ptrOf (calloc 5 first_freed 2 4) = some 4120 ∧
    ∃ p s2, calloc 5 first_freed 2 4 = some (p, s2) ∧
      (p ≠ NULL → ∀ i, i < 2 * 4 → s2.mem (p + i) = 0) :=
  ⟨by decide, by decide, by decide, by decide,
    calloc_zeroed 5 first_freed 2 4 [4096, 4128] (by decide) (by decide)⟩

/-- The call `realloc(4120, 4)` on `one_block`, whose block has size `8`. -/
theorem realloc_within_size_witness :
    4120 ≠ NULL ∧ 0 < 4 ∧ 4 ≤ (one_block.hdr (header_of 4120)).size ∧
    realloc 0 one_block 4120 4 = some (4120, one_block) :=
  ⟨by decide, by decide, by decide,
    realloc_within_size 0 one_block 4120 4 (by decide) (by decide) (by decide)⟩

/-! ## More fuel does not change a result -/

theorem get_free_block_loop_mono {hdr : Nat → header_t} {size : Nat} :
    ∀ (fuel fuel2 p r : Nat), get_free_block_loop fuel hdr p size = some r → fuel ≤ fuel2 →
      get_free_block_loop fuel2 hdr p size = some r
  | 0, _, _, _, h, _ => by simp [get_free_block_loop] at h
  | fuel + 1, fuel2, p, r, h, hle => by
    obtain ⟨m, rfl⟩ : ∃ m, fuel2 = m + 1 := ⟨fuel2 - 1, by omega⟩
    unfold get_free_block_loop at h ⊢
    split_ifs at h ⊢ with h1 h2
    · exact h
    · exact h
    · exact get_free_block_loop_mono fuel m _ r h (by omega)

theorem free_loop_mono :
    ∀ (fuel fuel2 : Nat) (hdr : Nat → header_t) (tail tmp : Nat) (r : (Nat → header_t) × Nat),
      free_loop fuel hdr tail tmp = some r → fuel ≤ fuel2 →
      free_loop fuel2 hdr tail tmp = some r
  | 0, _, _, _, _, _, h, _ => by simp [free_loop] at h
  | fuel + 1, fuel2, hdr, tail, tmp, r, h, hle => by
    obtain ⟨m, rfl⟩ : ∃ m, fuel2 = m + 1 := ⟨fuel2 - 1, by omega⟩
    unfold free_loop at h ⊢
    split_ifs at h ⊢ with h1 h2
    · exact h
    · exact free_loop_mono fuel m _ _ _ r h (by omega)
    · exact free_loop_mono fuel m _ _ _ r h (by omega)

theorem free_unlink_mono {fuel fuel2 : Nat} {s u : State} (h : free_unlink fuel s = some u)
    (hle : fuel ≤ fuel2) : free_unlink fuel2 s = some u := by
  unfold free_unlink at h ⊢
  split_ifs at h ⊢ with h1
  · exact h
  · cases hfl : free_loop fuel s.hdr s.tail s.head with
    | none => rw [hfl] at h; cases h
    | some r => rw [hfl] at h; rw [free_loop_mono fuel fuel2 _ _ _ r hfl hle]; exact h

theorem malloc_mono {fuel fuel2 : Nat} {s : State} {size : Nat} {r : Nat × State}
    (h : malloc fuel s size = some r) (hle : fuel ≤ fuel2) : malloc fuel2 s size = some r := by
  unfold malloc at h ⊢
  split_ifs at h ⊢ with h0
  · exact h
  · cases hl : pthread_mutex_lock s with
    | none => rw [hl] at h; cases h
    | some s1 =>
      rw [hl] at h
      simp only at h ⊢
      cases hg : get_free_block fuel s1 size with
      | none => rw [hg] at h; cases h
      | some header =>
        rw [hg] at h
        have hg2 : get_free_block fuel2 s1 size = some header :=
          get_free_block_loop_mono fuel fuel2 _ header hg hle
        rw [hg2]
        exact h

theorem free_mono {fuel fuel2 : Nat} {s s2 : State} {block : Nat}
    (h : free fuel s block = some s2) (hle : fuel ≤ fuel2) : free fuel2 s block = some s2 := by
  unfold free at h ⊢
  split_ifs at h ⊢ with h0
  · exact h
  · cases hl : pthread_mutex_lock s with
    | none => rw [hl] at h; cases h
    | some s1 =>
      rw [hl] at h
      simp only at h ⊢
      split_ifs at h ⊢ with h1
      · cases hu : free_unlink fuel (sbrk s1 0).2 with
        | none => rw [hu] at h; cases h
        | some u => rw [hu] at h; rw [free_unlink_mono hu hle]; exact h
      · exact h

/-! ## The invariant is kept -/

theorem fresh_inv {s : State} (h : Fresh s) : Inv s [] := by
  obtain ⟨h1, h2, h3, h4, h5, h6, h7⟩ := h
  exact ⟨⟨h1, h2, h7⟩, h3.symm, h4, h5, h6⟩

/-- What `malloc` returns on a state that satisfies the invariant, for a sane
size: either `NULL` with the state unchanged, when no block fits and the platform
denies the growth, or the payload of a block of the new registry that is in use,
records at least `n` bytes and lies between the region base and the break. -/
theorem malloc_spec {fuel : Nat} {s s1 : State} {l : List Nat} {n p : Nat}
    (hinv : Inv s l) (hn : 0 < n) (hsane : Sane n) (hf : l.length < fuel)
    (hm : malloc fuel s n = some (p, s1)) :
    (p = NULL ∧ s1 = s ∧ (∀ a ∈ l, ¬ fits s.hdr n a) ∧
        sbrk_denied s ((HEADER_SIZE + n) % WORD) = true) ∨
    (p ≠ NULL ∧ ∃ l1, Inv s1 l1 ∧ (l1 = l ∨ l1 = l ++ [header_of p]) ∧
        header_of p ∈ l1 ∧ payload (header_of p) = p ∧
        (s1.hdr (header_of p)).is_free = 0 ∧ n ≤ (s1.hdr (header_of p)).size ∧
        s1.base ≤ header_of p ∧ p + (s1.hdr (header_of p)).size ≤ s1.brk ∧
        s1.base = s.base ∧ s1.limit = s.limit ∧ s1.mem = s.mem) := by
  have hn0 : n ≠ 0 := by omega
  have hg := get_free_block_loop_eq n l _ fuel hinv.1.1 hf
  obtain ⟨hb0, hb63, hbpos⟩ := inv_brk hinv
  unfold Sane at hsane
  have hT : (HEADER_SIZE + n) % WORD = HEADER_SIZE + n := by
    apply Nat.mod_eq_of_lt
    simp only [HEADER_SIZE, WORD] at *; omega
  by_cases hr0 : first_fit s.hdr n l = NULL
  · have hg0 : get_free_block fuel s n = some NULL := by rw [← hr0]; exact hg
    have hnofit : ∀ a ∈ l, ¬ fits s.hdr n a := by
      rcases first_fit_spec s.hdr n l with ⟨_, h2⟩ | ⟨_, _, _, hm2, _, _⟩
      · exact h2
      · exact absurd hr0 (chain_ne_null l _ hinv.1.1 _ hm2)
    by_cases hd : sbrk_denied s ((HEADER_SIZE + n) % WORD) = true
    · rw [malloc_denied hn0 hinv.1.2.2 hg0 hd] at hm
      simp only [Option.some.injEq, Prod.mk.injEq] at hm
      exact Or.inl ⟨hm.1.symm, hm.2.symm, hnofit, hd⟩
    · have hd : sbrk_denied s ((HEADER_SIZE + n) % WORD) = false := by simpa using hd
      have hbf : s.brk ≠ SBRK_FAILED := by simp only [SBRK_FAILED, WORD]; omega
      rw [malloc_grow hn0 hinv.1.2.2 hg0 hd hbf] at hm
      simp only [Option.some.injEq, Prod.mk.injEq] at hm
      obtain ⟨hp1, hs1⟩ := hm
      have hw : s.brk + HEADER_SIZE < WORD := by simp only [HEADER_SIZE, WORD]; omega
      have hh : header_of p = s.brk := by rw [← hp1]; exact header_of_payload hw
      have hpe : p = s.brk + HEADER_SIZE := by rw [← hp1]; exact payload_eq hw
      obtain ⟨⟨hc, htl, hlk⟩, hcg, hbase, hlim, hlim2⟩ := hinv
      have hnd : l.Nodup := contig_nodup l _ _ hcg
      have hBl : s.brk ∉ l := contig_not_mem_end hcg
      have hB0 : s.brk ≠ NULL := by simp only [NULL]; omega
      have e_hdr : s1.hdr = appended s.hdr s.tail s.brk n := by rw [← hs1]
      have e_head : s1.head = if s.head = NULL then s.brk else s.head := by rw [← hs1]
      have e_tail : s1.tail = s.brk := by rw [← hs1]
      have e_brk : s1.brk = (sbrk s ((HEADER_SIZE + n) % WORD)).2.brk := by rw [← hs1]
      have e_base : s1.base = s.base := by rw [← hs1]
      have e_limit : s1.limit = s.limit := by rw [← hs1]
      have e_lock : s1.lock = s.lock := by rw [← hs1]
      have e_mem : s1.mem = s.mem := by rw [← hs1]
      have hnew := appended_new s.hdr s.tail s.brk n
      have hden := hd
      unfold sbrk_denied at hden
      rw [hT, if_neg (by simp only [HEADER_SIZE]; omega), if_pos hsane] at hden
      simp only [decide_eq_false_iff_not, not_lt] at hden
      have hbrk1 : s1.brk = s.brk + (HEADER_SIZE + n) := by
        rw [e_brk]
        unfold sbrk
        rw [hd, hT]
        simp only [Bool.false_eq_true, if_false, hsane, if_true]
      refine Or.inr ⟨by rw [hpe]; simp only [NULL, HEADER_SIZE]; omega, l ++ [s.brk], ?_,
        Or.inr (by rw [hh]), by rw [hh]; simp, by rw [hh]; exact hp1, ?_, ?_, ?_, ?_,
        e_base, e_limit, e_mem⟩
      · refine ⟨⟨?_, ?_, e_lock.trans hlk⟩, ?_, by rw [e_base]; exact hbase, ?_,
          by rw [e_limit]; exact hlim2⟩
        · rw [e_hdr, e_head]; exact chain_appended n hc htl hnd hBl hB0
        · rw [e_tail, List.getLastD_concat]
        · rw [contig_snoc, e_base]
          refine ⟨contig_congr l _ _ (fun a ha => ?_) hcg, ?_⟩
          · rw [e_hdr]
            exact (appended_frame s.hdr s.tail s.brk n (fun e => hBl (e ▸ ha))).1
          · rw [hbrk1, e_hdr, hnew.1]; omega
        · rw [hbrk1, e_limit]; omega
      · rw [hh, e_hdr]; exact hnew.2
      · rw [hh, e_hdr, hnew.1]
      · rw [hh, e_base]; exact hb0
      · rw [hh, e_hdr, hnew.1, hbrk1, hpe]; omega
  · rw [malloc_hit hn0 hinv.1.2.2 hg hr0] at hm
    simp only [Option.some.injEq, Prod.mk.injEq] at hm
    obtain ⟨hp1, hs1⟩ := hm
    have hrl : first_fit s.hdr n l ∈ l := by
      rcases first_fit_mem_or_null s.hdr n l with h | h
      · exact absurd h hr0
      · exact h
    have hfit : fits s.hdr n (first_fit s.hdr n l) := by
      rcases first_fit_spec s.hdr n l with ⟨h1, _⟩ | ⟨_, _, _, _, h2, _⟩
      · exact absurd h1 hr0
      · exact h2
    have hbb := inv_block_bounds hinv hrl
    have hw : first_fit s.hdr n l + HEADER_SIZE < WORD := by
      simp only [HEADER_SIZE, WORD] at *; omega
    have hh : header_of p = first_fit s.hdr n l := by rw [← hp1]; exact header_of_payload hw
    have hpe : p = first_fit s.hdr n l + HEADER_SIZE := by rw [← hp1]; exact payload_eq hw
    have hinv1 := inv_set_is_free hinv (first_fit s.hdr n l) 0
    rw [hs1] at hinv1
    have e_hdr : s1.hdr = set_is_free s.hdr (first_fit s.hdr n l) 0 := by rw [← hs1]
    have e_brk : s1.brk = s.brk := by rw [← hs1]
    have e_base : s1.base = s.base := by rw [← hs1]
    have e_limit : s1.limit = s.limit := by rw [← hs1]
    have e_mem : s1.mem = s.mem := by rw [← hs1]
    refine Or.inr ⟨by rw [hpe]; simp only [NULL, HEADER_SIZE]; omega, l, hinv1, Or.inl rfl,
      by rw [hh]; exact hrl, by rw [hh]; exact hp1, ?_, ?_, ?_, ?_, e_base, e_limit, e_mem⟩
    · rw [hh, e_hdr]; simp [set_is_free]
    · rw [hh, e_hdr]; simp only [set_is_free, if_true]; exact hfit.2
    · rw [hh, e_base]; exact hbb.1
    · rw [hh, e_hdr, e_brk, hpe]; simp only [set_is_free, if_true]; omega

/-- The call `free` on the payload of a registry block keeps the invariant: the
registry is the same chain, or the chain without its last header. -/
theorem free_spec {fuel : Nat} {s s1 : State} {l : List Nat} {b : Nat}
    (hinv : Inv s l) (hb : b ∈ l) (hf : l.length < fuel)
    (hfree : free fuel s (payload b) = some s1) :
    ∃ l1, Inv s1 l1 ∧ (l1 = l ∨ l = l1 ++ [b]) ∧ s1.base = s.base ∧ s1.limit = s.limit ∧
      s1.mem = s.mem := by
  by_cases htop : ptr_add (payload b) (s.hdr b).size = s.brk
  · obtain ⟨s2, pre, h1, h2, _, _, _, h3, _, _, _, h4, h5, h6⟩ :=
      free_top_spec fuel s l b hinv hb htop hf
    rw [h1] at hfree
    cases hfree
    exact ⟨pre, h3, Or.inr h2, h5, h6, h4⟩
  · obtain ⟨s2, h1, h2, _⟩ := free_interior_spec fuel s l b hinv hb htop
    rw [h1] at hfree
    cases hfree
    rw [h2]
    exact ⟨l, inv_set_is_free hinv b 1, Or.inl rfl, rfl, rfl, rfl⟩

/-- The invariant does not read the payload bytes. -/
theorem inv_set_mem {s : State} {l : List Nat} (hinv : Inv s l) (m : Nat → Nat) :
    Inv { s with mem := m } l := hinv

/-- A header map and a start pointer have at most one chain. -/
theorem chain_unique {hdr : Nat → header_t} :
    ∀ (l1 l2 : List Nat) (p : Nat), Chain hdr p l1 → Chain hdr p l2 → l1 = l2
  | [], [], _, _, _ => rfl
  | [], b :: l2, p, h1, h2 => by
    have e1 : p = NULL := h1
    exact absurd (h2.1.symm.trans e1) h2.2.1
  | a :: l1, [], p, h1, h2 => by
    have e2 : p = NULL := h2
    exact absurd (h1.1.symm.trans e2) h1.2.1
  | a :: l1, b :: l2, p, h1, h2 => by
    have e : a = b := h1.1.symm.trans h2.1
    subst e
    rw [chain_unique l1 l2 _ h1.2.2 h2.2.2]

/-- A pointer that is `NULL` or live, in a state with registry `l`, is `NULL` or
the payload of a header of `l`. -/
theorem live_mem {s : State} {l : List Nat} {p : Nat} (hc : Chain s.hdr s.head l)
    (h : Live s p) : ∃ b, b ∈ l ∧ p = payload b := by
  obtain ⟨l2, b, hc2, hb, hp, _⟩ := h
  refine ⟨b, ?_, hp⟩
  have : l2 = l := chain_unique l2 l _ hc2 hc
  rw [← this]; exact hb

/-- The call `malloc` with a sane size keeps the invariant, whatever the fuel
with which it returned. -/
theorem malloc_keeps_inv {fuel : Nat} {s s1 : State} {l : List Nat} {n p : Nat}
    (hinv : Inv s l) (hsane : Sane n) (hm : malloc fuel s n = some (p, s1)) :
    ∃ l1, Inv s1 l1 ∧ (∀ b ∈ l, b ∈ l1) ∧ s1.base = s.base ∧ s1.limit = s.limit := by
  by_cases hn : n = 0
  · subst hn
    simp only [malloc, if_true, Option.some.injEq, Prod.mk.injEq] at hm
    rw [← hm.2]
    exact ⟨l, hinv, fun b hb => hb, rfl, rfl⟩
  · have hm2 := malloc_mono hm (Nat.le_max_left fuel (l.length + 1))
    have hf : l.length < max fuel (l.length + 1) := by omega
    rcases malloc_spec hinv (by omega) hsane hf hm2 with ⟨_, h2, _⟩ | ⟨_, l1, h1, h2, _, _, _, _, _, _, h3, h4, _⟩
    · rw [h2]; exact ⟨l, hinv, fun b hb => hb, rfl, rfl⟩
    · refine ⟨l1, h1, ?_, h3, h4⟩
      rcases h2 with rfl | rfl
      · exact fun b hb => hb
      · exact fun b hb => List.mem_append_left _ hb

/-- The call `free` on `NULL` or on the payload of a registry block keeps the
invariant, whatever the fuel with which it returned. -/
theorem free_keeps_inv {fuel : Nat} {s s1 : State} {l : List Nat} {p : Nat}
    (hinv : Inv s l) (hp : p = NULL ∨ ∃ b, b ∈ l ∧ p = payload b)
    (hfree : free fuel s p = some s1) :
    ∃ l1, Inv s1 l1 ∧ s1.base = s.base ∧ s1.limit = s.limit := by
  rcases hp with rfl | ⟨b, hb, rfl⟩
  · simp only [free, if_true, Option.some.injEq] at hfree
    rw [← hfree]
    exact ⟨l, hinv, rfl, rfl⟩
  · have h2 := free_mono hfree (Nat.le_max_left fuel (l.length + 1))
    have hf : l.length < max fuel (l.length + 1) := by omega
    obtain ⟨l1, h1, _, h3, h4, _⟩ := free_spec hinv hb hf h2
    exact ⟨l1, h1, h3, h4⟩

/-- The call `calloc` with a sane product keeps the invariant. -/
theorem calloc_keeps_inv {fuel : Nat} {s s1 : State} {l : List Nat} {num nsize p : Nat}
    (hinv : Inv s l) (hsane : Sane (num * nsize))
    (hc : calloc fuel s num nsize = some (p, s1)) :
    ∃ l1, Inv s1 l1 ∧ s1.base = s.base ∧ s1.limit = s.limit := by
  unfold calloc at hc
  by_cases h0 : num = 0 ∨ nsize = 0
  · rw [if_pos h0] at hc
    simp only [Option.some.injEq, Prod.mk.injEq] at hc
    rw [← hc.2]; exact ⟨l, hinv, rfl, rfl⟩
  rw [if_neg h0] at hc
  simp only at hc
  by_cases ht : nsize ≠ (num * nsize) % WORD / num
  · rw [if_pos ht] at hc
    simp only [Option.some.injEq, Prod.mk.injEq] at hc
    rw [← hc.2]; exact ⟨l, hinv, rfl, rfl⟩
  rw [if_neg ht] at hc
  · have hsz : (num * nsize) % WORD = num * nsize := by
      apply Nat.mod_eq_of_lt
      unfold Sane at hsane
      simp only [HEADER_SIZE, WORD] at *; omega
    rw [hsz] at hc
    cases hm : malloc fuel s (num * nsize) with
    | none => rw [hm] at hc; cases hc
    | some r =>
      rw [hm] at hc
      obtain ⟨l1, h1, _, h3, h4⟩ := @malloc_keeps_inv fuel s r.2 l (num * nsize) r.1 hinv hsane hm
      simp only at hc
      split_ifs at hc with hp
      · simp only [Option.some.injEq, Prod.mk.injEq] at hc
        rw [← hc.2]; exact ⟨l1, h1, h3, h4⟩
      · simp only [Option.some.injEq, Prod.mk.injEq] at hc
        rw [← hc.2]; exact ⟨l1, inv_set_mem h1 _, h3, h4⟩

/-- The call `realloc` on `NULL` or on the payload of a registry block, with a
sane size, keeps the invariant. -/
theorem realloc_keeps_inv {fuel : Nat} {s s1 : State} {l : List Nat} {p n q : Nat}
    (hinv : Inv s l) (hp : p = NULL ∨ ∃ b, b ∈ l ∧ p = payload b) (hsane : Sane n)
    (hr : realloc fuel s p n = some (q, s1)) :
    ∃ l1, Inv s1 l1 ∧ s1.base = s.base ∧ s1.limit = s.limit := by
  unfold realloc at hr
  by_cases h0 : p = NULL ∨ n = 0
  · rw [if_pos h0] at hr
    obtain ⟨l1, h1, _, h3, h4⟩ := malloc_keeps_inv hinv hsane hr
    exact ⟨l1, h1, h3, h4⟩
  rw [if_neg h0] at hr
  simp only at hr
  by_cases hsz : (s.hdr (header_of p)).size ≥ n
  · rw [if_pos hsz] at hr
    simp only [Option.some.injEq, Prod.mk.injEq] at hr
    rw [← hr.2]; exact ⟨l, hinv, rfl, rfl⟩
  rw [if_neg hsz] at hr
  · cases hm : malloc fuel s n with
    | none => rw [hm] at hr; cases hr
    | some r =>
      rw [hm] at hr
      obtain ⟨l1, h1, h2, h3, h4⟩ := @malloc_keeps_inv fuel s r.2 l n r.1 hinv hsane hm
      simp only at hr
      split_ifs at hr with hq
      · cases hfr : free fuel
            { r.2 with mem := memcpy r.2.mem r.1 p (r.2.hdr (header_of p)).size } p with
        | none => rw [hfr] at hr; cases hr
        | some s3 =>
          rw [hfr] at hr
          simp only [Option.some.injEq, Prod.mk.injEq] at hr
          have hp1 : p = NULL ∨ ∃ b, b ∈ l1 ∧ p = payload b := by
            rcases hp with h | ⟨b, hb, hpb⟩
            · exact Or.inl h
            · exact Or.inr ⟨b, h2 b hb, hpb⟩
          obtain ⟨l3, h5, h6, h7⟩ := free_keeps_inv (inv_set_mem h1 _) hp1 hfr
          rw [← hr.2]
          exact ⟨l3, h5, h6.trans h3, h7.trans h4⟩
      · simp only [Option.some.injEq, Prod.mk.injEq] at hr
        rw [← hr.2]; exact ⟨l1, h1, h3, h4⟩

/-- Every reachable state satisfies the invariant, for the chain of its
registry. -/
theorem reachable_inv {s : State} (h : Reachable s) : ∃ l, Inv s l := by
  induction h with
  | fresh s hs => exact ⟨[], fresh_inv hs⟩
  | malloc fuel s size p s1 _ hsane hm ih =>
    obtain ⟨l, hinv⟩ := ih
    obtain ⟨l1, h1, _⟩ := malloc_keeps_inv hinv hsane hm
    exact ⟨l1, h1⟩
  | free fuel s p s1 _ hp hfree ih =>
    obtain ⟨l, hinv⟩ := ih
    have hp1 : p = NULL ∨ ∃ b, b ∈ l ∧ p = payload b :=
      hp.imp id (fun hl => live_mem hinv.1.1 hl)
    obtain ⟨l1, h1, _⟩ := free_keeps_inv hinv hp1 hfree
    exact ⟨l1, h1⟩
  | calloc fuel s num nsize p s1 _ hsane hc ih =>
    obtain ⟨l, hinv⟩ := ih
    obtain ⟨l1, h1, _⟩ := calloc_keeps_inv hinv hsane hc
    exact ⟨l1, h1⟩
  | realloc fuel s p size q s1 _ hp hsane hr ih =>
    obtain ⟨l, hinv⟩ := ih
    have hp1 : p = NULL ∨ ∃ b, b ∈ l ∧ p = payload b :=
      hp.imp id (fun hl => live_mem hinv.1.1 hl)
    obtain ⟨l1, h1, _⟩ := realloc_keeps_inv hinv hp1 hsane hr
    exact ⟨l1, h1⟩

/-- The counted `malloc` without its counter is `malloc`. -/
theorem malloc_counted_erase (fuel : Nat) (s : State) (k size : Nat) :
    (malloc_counted fuel (s, k) size).map (fun r => (r.1, r.2.1)) = malloc fuel s size := by
  unfold malloc_counted malloc lock_counted
  by_cases h0 : size = 0
  · simp [h0]
  · rw [if_neg h0, if_neg h0]
    cases hl : pthread_mutex_lock s with
    | none => simp
    | some s1 =>
      simp only
      cases hg : get_free_block fuel s1 size with
      | none => simp
      | some header =>
        simp only
        split_ifs <;> rfl

/-- The counted `free` without its counter is `free`. -/
theorem free_counted_erase (fuel : Nat) (s : State) (k block : Nat) :
    (free_counted fuel (s, k) block).map (fun r => r.1) = free fuel s block := by
  unfold free_counted free lock_counted
  by_cases h0 : block = NULL
  · simp [h0]
  · rw [if_neg h0, if_neg h0]
    cases hl : pthread_mutex_lock s with
    | none => simp
    | some s1 =>
      simp only
      split_ifs
      · cases hu : free_unlink fuel (sbrk s1 0).2 with
        | none => simp
        | some s3 => simp
      · rfl

/-- The counted `malloc` leaves the mutex free and has acquired it once, or not
at all for size `0`. -/
theorem malloc_counted_spec {fuel : Nat} {s s1 : State} {k k1 size p : Nat}
    (hl : s.lock = false) (h : malloc_counted fuel (s, k) size = some (p, (s1, k1))) :
    s1.lock = false ∧ k1 ≤ k + 1 ∧ (size ≠ 0 → k1 = k + 1) := by
  unfold malloc_counted lock_counted at h
  by_cases h0 : size = 0
  · rw [if_pos h0] at h
    simp only [Option.some.injEq, Prod.mk.injEq] at h
    obtain ⟨_, h2, h3⟩ := h
    subst h2 h3
    exact ⟨hl, by omega, fun hc => absurd h0 hc⟩
  · rw [if_neg h0] at h
    cases hlk : pthread_mutex_lock s with
    | none => rw [hlk] at h; cases h
    | some s2 =>
      rw [hlk] at h
      simp only at h
      cases hg : get_free_block fuel s2 size with
      | none => rw [hg] at h; cases h
      | some header =>
        rw [hg] at h
        simp only at h
        split_ifs at h <;>
        · simp only [Option.some.injEq, Prod.mk.injEq] at h
          obtain ⟨_, h2, h3⟩ := h
          subst h2 h3
          exact ⟨rfl, by omega, fun _ => rfl⟩

/-- The counted `free` leaves the mutex free and has acquired it once, or not
at all for `NULL`. -/
theorem free_counted_spec {fuel : Nat} {s s1 : State} {k k1 block : Nat}
    (hl : s.lock = false) (h : free_counted fuel (s, k) block = some (s1, k1)) :
    s1.lock = false ∧ k1 ≤ k + 1 ∧ (block ≠ NULL → k1 = k + 1) := by
  unfold free_counted lock_counted at h
  by_cases h0 : block = NULL
  · rw [if_pos h0] at h
    simp only [Option.some.injEq, Prod.mk.injEq] at h
    obtain ⟨h2, h3⟩ := h
    subst h2 h3
    exact ⟨hl, by omega, fun hc => absurd h0 hc⟩
  · rw [if_neg h0] at h
    cases hlk : pthread_mutex_lock s with
    | none => rw [hlk] at h; cases h
    | some s2 =>
      rw [hlk] at h
      simp only at h
      split_ifs at h
      · cases hu : free_unlink fuel (sbrk s2 0).2 with
        | none => rw [hu] at h; cases h
        | some s3 =>
          rw [hu] at h
          simp only [Option.some.injEq, Prod.mk.injEq] at h
          obtain ⟨h2, h3⟩ := h
          subst h2 h3
          exact ⟨rfl, by omega, fun _ => rfl⟩
      · simp only [Option.some.injEq, Prod.mk.injEq] at h
        obtain ⟨h2, h3⟩ := h
        subst h2 h3
        exact ⟨rfl, by omega, fun _ => rfl⟩

/-- The loop of `free` ends on every chain, whatever `tail` is. -/
theorem free_loop_total {tail : Nat} :
    ∀ (l : List Nat) (hdr : Nat → header_t) (p fuel : Nat), Chain hdr p l → l.length < fuel →
      ∃ r, free_loop fuel hdr tail p = some r
  | [], hdr, p, fuel, h, hf => by
    obtain ⟨n, rfl⟩ : ∃ n, fuel = n + 1 := ⟨fuel - 1, by omega⟩
    have h0 : p = NULL := h
    exact ⟨(hdr, tail), by simp [free_loop, h0]⟩
  | a :: l, hdr, p, fuel, h, hf => by
    obtain ⟨n, rfl⟩ : ∃ n, fuel = n + 2 := ⟨fuel - 2, by simp at hf; omega⟩
    obtain ⟨h1, h2, h3⟩ := h
    subst h1
    unfold free_loop
    rw [if_neg h2]
    by_cases hn : (hdr p).next = tail
    · rw [if_pos hn]
      exact ⟨(set_next hdr p NULL, p), by simp [free_loop, set_next]⟩
    · rw [if_neg hn]
      exact free_loop_total l hdr _ (n + 1) h3 (by simp at hf; omega)

/-- On a well-formed registry `free` returns, for every pointer. -/
theorem free_total {fuel : Nat} {s : State} {l : List Nat} (block : Nat) (hr : Registry s l)
    (hf : l.length < fuel) : ∃ s1, free fuel s block = some s1 := by
  obtain ⟨hc, _, hl⟩ := hr
  unfold free
  by_cases h0 : block = NULL
  · rw [if_pos h0]; exact ⟨_, rfl⟩
  · rw [if_neg h0]
    simp only [pthread_mutex_lock, hl, Bool.false_eq_true, if_false, sbrk_zero]
    split_ifs
    · have hu : ∃ u, free_unlink fuel { s with lock := true } = some u := by
        unfold free_unlink
        split_ifs
        · exact ⟨_, rfl⟩
        · obtain ⟨r, hr⟩ := @free_loop_total s.tail l s.hdr s.head fuel hc hf
          exact ⟨{ s with lock := true, hdr := r.1, tail := r.2 }, by simp only [hr]⟩
      obtain ⟨u, hu⟩ := hu
      rw [hu]
      exact ⟨_, rfl⟩
    · exact ⟨_, rfl⟩

/-- On a state that satisfies the invariant, `malloc` returns `NULL` for a size
that is not `0` only when no block fits and the platform denies the growth, and
then the state is as before. -/
theorem malloc_null_unchanged {fuel : Nat} {s s1 : State} {l : List Nat} {n : Nat}
    (hinv : Inv s l) (hn : n ≠ 0) (hm : malloc fuel s n = some (NULL, s1)) :
    s1 = s ∧ (∀ a ∈ l, ¬ fits s.hdr n a) ∧
      sbrk_denied s ((HEADER_SIZE + n) % WORD) = true := by
  have hm2 := malloc_mono hm (Nat.le_max_left fuel (l.length + 1))
  have hf : l.length < max fuel (l.length + 1) := by omega
  have hg := get_free_block_loop_eq n l _ _ hinv.1.1 hf
  obtain ⟨hb0, hb63, hbpos⟩ := inv_brk hinv
  by_cases hr0 : first_fit s.hdr n l = NULL
  · have hg0 : get_free_block (max fuel (l.length + 1)) s n = some NULL := by
      rw [← hr0]; exact hg
    by_cases hd : sbrk_denied s ((HEADER_SIZE + n) % WORD) = true
    · rw [malloc_denied hn hinv.1.2.2 hg0 hd] at hm2
      simp only [Option.some.injEq, Prod.mk.injEq, true_and] at hm2
      refine ⟨hm2.symm, ?_, hd⟩
      rcases first_fit_spec s.hdr n l with ⟨_, h2⟩ | ⟨_, _, _, hm3, _, _⟩
      · exact h2
      · exact absurd hr0 (chain_ne_null l _ hinv.1.1 _ hm3)
    · have hd : sbrk_denied s ((HEADER_SIZE + n) % WORD) = false := by simpa using hd
      have hbf : s.brk ≠ SBRK_FAILED := by simp only [SBRK_FAILED, WORD]; omega
      rw [malloc_grow hn hinv.1.2.2 hg0 hd hbf] at hm2
      simp only [Option.some.injEq, Prod.mk.injEq] at hm2
      have hw : s.brk + HEADER_SIZE < WORD := by simp only [HEADER_SIZE, WORD]; omega
      exact absurd hm2.1 (payload_ne_null hw)
  · rw [malloc_hit hn hinv.1.2.2 hg hr0] at hm2
    simp only [Option.some.injEq, Prod.mk.injEq] at hm2
    have hrl : first_fit s.hdr n l ∈ l := by
      rcases first_fit_mem_or_null s.hdr n l with h | h
      · exact absurd h hr0
      · exact h
    have hbb := inv_block_bounds hinv hrl
    have hw : first_fit s.hdr n l + HEADER_SIZE < WORD := by
      simp only [HEADER_SIZE, WORD] at *; omega
    exact absurd hm2.1 (payload_ne_null hw)

/-- C12: for a state that satisfies the invariant (as every reachable state
does), a block `b` of the registry and every `n` greater than the size recorded
in `b`'s header, if the inner `malloc(n)` returns `NULL` then
`realloc(payload b, n)` returns `NULL` and the state after the call equals the
state before it: registry, flags, sizes, payload bytes and break are unchanged,
so `b` is still in the registry with the flag it had.  The inner `malloc` fails
exactly because no block fits and the platform denies the growth. -/
theorem realloc_failure_unchanged (fuel : Nat) (s s1 : State) (l : List Nat) (b n : Nat)
    (hinv : Inv s l) (hb : b ∈ l) (hn : (s.hdr b).size < n)
    (hm : malloc fuel s n = some (NULL, s1)) :
    realloc fuel s (payload b) n = some (NULL, s) ∧ s1 = s ∧
      (∀ a ∈ l, ¬ ((s.hdr a).is_free ≠ 0 ∧ (s.hdr a).size ≥ n)) ∧
      sbrk_denied s ((HEADER_SIZE + n) % WORD) = true := by
  have hn0 : n ≠ 0 := by omega
  obtain ⟨h1, h2, h3⟩ := malloc_null_unchanged hinv hn0 hm
  refine ⟨?_, h1, h2, h3⟩
  have hbb := inv_block_bounds hinv hb
  have hw : b + HEADER_SIZE < WORD := by simp only [HEADER_SIZE, WORD] at *; omega
  unfold realloc
  rw [if_neg (by simp [payload_ne_null hw, hn0])]
  simp only [header_of_payload hw]
  rw [if_neg (by omega), hm]
  simp [h1]

/-- C13: `realloc(NULL, n)` is `malloc(n)`, with the same result and the same
final state, for every state, fuel and `n`; and `realloc(block, 0)` is
`malloc(0)` for every pointer `block`: it returns `NULL` and the state after
the call equals the state before it, so the block of a live pointer stays in the
registry with its flag `0`. -/
theorem realloc_null_or_zero_is_malloc :
    (∀ (fuel : Nat) (s : State) (n : Nat), realloc fuel s NULL n = malloc fuel s n) ∧
    (∀ (fuel : Nat) (s : State) (block : Nat),
      realloc fuel s block 0 = malloc fuel s 0 ∧ realloc fuel s block 0 = some (NULL, s)) := by
  refine ⟨fun fuel s n => ?_, fun fuel s block => ?_⟩
  · simp [realloc]
  · simp [realloc, malloc]

/-- C19: on a well-formed registry whose mutex is not held, every call of
`malloc` (any size) and of `free` (any pointer) returns, on whichever exit path,
with the mutex not held, and the instrumented run of the same call, which agrees
with it on result and state, has acquired the mutex at most once. -/
theorem lock_released_on_every_exit (fuel : Nat) (s : State) (l : List Nat)
    (hr : Registry s l) (hf : l.length < fuel) :
    (∀ size, ∃ p s1 k, malloc fuel s size = some (p, s1) ∧
      malloc_counted fuel (s, 0) size = some (p, (s1, k)) ∧ s1.lock = false ∧ k ≤ 1) ∧
    (∀ block, ∃ s1 k, free fuel s block = some s1 ∧
      free_counted fuel (s, 0) block = some (s1, k) ∧ s1.lock = false ∧ k ≤ 1) := by
  constructor
  · intro size
    obtain ⟨r, hm⟩ := malloc_total size hr hf
    have he := malloc_counted_erase fuel s 0 size
    rw [hm] at he
    cases hc : malloc_counted fuel (s, 0) size with
    | none => rw [hc] at he; cases he
    | some c =>
      rw [hc] at he
      simp only [Option.map_some', Option.some.injEq] at he
      obtain ⟨p, s1, k⟩ := c
      have h := malloc_counted_spec hr.2.2 hc
      refine ⟨p, s1, k, by rw [hm, ← he], rfl, h.1, by omega⟩
  · intro block
    obtain ⟨r, hm⟩ := free_total block hr hf
    have he := free_counted_erase fuel s 0 block
    rw [hm] at he
    cases hc : free_counted fuel (s, 0) block with
    | none => rw [hc] at he; cases he
    | some c =>
      rw [hc] at he
      simp only [Option.map_some', Option.some.injEq] at he
      obtain ⟨s1, k⟩ := c
      have h := free_counted_spec hr.2.2 hc
      refine ⟨s1, k, by rw [hm, ← he], rfl, h.1, by omega⟩

/-- The call `realloc(4120, 16)` on `tight_block`, where the platform has no
room for a second block. -/
theorem realloc_failure_unchanged_witness :
    Inv tight_block [4096] ∧ 4096 ∈ [4096] ∧ (tight_block.hdr 4096).size < 16 ∧
    malloc 5 tight_block 16 = some (NULL, tight_block) ∧
    realloc 5 tight_block (payload 4096) 16 = some (NULL, tight_block) :=
  ⟨by decide, by decide, by decide, rfl,
    (realloc_failure_unchanged 5 tight_block tight_block [4096] 4096 16 (by decide)
      (by decide) (by decide) rfl).1⟩

/-- The calls `malloc(16)` and `free(4152)` on `two_blocks`. -/
theorem lock_released_on_every_exit_witness :
    Registry two_blocks [4096, 4128] ∧ [4096, 4128].length < 5 ∧
    (∃ p s1 k, malloc 5 two_blocks 16 = some (p, s1) ∧
      malloc_counted 5 (two_blocks, 0) 16 = some (p, (s1, k)) ∧ s1.lock = false ∧ k ≤ 1) ∧
    (∃ s1 k, free 5 two_blocks 4152 = some s1 ∧
      free_counted 5 (two_blocks, 0) 4152 = some (s1, k) ∧ s1.lock = false ∧ k ≤ 1) :=
  ⟨by decide, by decide,
    (lock_released_on_every_exit 5 two_blocks [4096, 4128] (by decide) (by decide)).1 16,
    (lock_released_on_every_exit 5 two_blocks [4096, 4128] (by decide) (by decide)).2 4152⟩

/-- Two different blocks of a contiguous layout do not overlap: one ends before
the header of the other starts. -/
theorem contig_disjoint {hdr : Nat → header_t} :
    ∀ (l : List Nat) (a e : Nat), Contig hdr a l e → ∀ x ∈ l, ∀ y ∈ l, x ≠ y →
      x + HEADER_SIZE + (hdr x).size ≤ y ∨ y + HEADER_SIZE + (hdr y).size ≤ x
  | [], _, _, _, x, hx, _, _, _ => by simp at hx
  | c :: l, a, e, h, x, hx, y, hy, hxy => by
    obtain ⟨h1, h2⟩ := h
    subst h1
    have hb := (contig_bounds l _ e h2).2
    rcases List.mem_cons.1 hx with hx1 | hx1
    · rcases List.mem_cons.1 hy with hy1 | hy1
      · exact absurd (hx1.trans hy1.symm) hxy
      · rw [hx1]; exact Or.inl (hb y hy1).1
    · rcases List.mem_cons.1 hy with hy1 | hy1
      · rw [hy1]; exact Or.inr (hb x hx1).1
      · exact contig_disjoint l _ e h2 x hx1 y hy1 hxy

/-- The two ways in which `malloc` returns a pointer that is not `NULL`, on a
state that satisfies the invariant: the scan has found the block `r`, or the
scan has found nothing, the platform has not denied the move of the break and
the new block is at the old break. -/
theorem malloc_success_cases {fuel : Nat} {s s1 : State} {l : List Nat} {n p : Nat}
    (hinv : Inv s l) (hn : n ≠ 0) (hf : l.length < fuel)
    (hm : malloc fuel s n = some (p, s1)) (hp : p ≠ NULL) :
    (∃ r, r ∈ l ∧ fits s.hdr n r ∧ p = payload r ∧
        s1 = { s with hdr := set_is_free s.hdr r 0 }) ∨
    ((∀ a ∈ l, ¬ fits s.hdr n a) ∧ sbrk_denied s ((HEADER_SIZE + n) % WORD) = false ∧
        p = payload s.brk ∧
        s1 = { s with hdr := appended s.hdr s.tail s.brk n,
                      head := if s.head = NULL then s.brk else s.head,
                      tail := s.brk,
                      brk := (sbrk s ((HEADER_SIZE + n) % WORD)).2.brk }) := by
  have hg := get_free_block_loop_eq n l _ fuel hinv.1.1 hf
  obtain ⟨hb0, hb63, hbpos⟩ := inv_brk hinv
  by_cases hr0 : first_fit s.hdr n l = NULL
  · have hg0 : get_free_block fuel s n = some NULL := by rw [← hr0]; exact hg
    have hnofit : ∀ a ∈ l, ¬ fits s.hdr n a := by
      rcases first_fit_spec s.hdr n l with ⟨_, h2⟩ | ⟨_, _, _, hm3, _, _⟩
      · exact h2
      · exact absurd hr0 (chain_ne_null l _ hinv.1.1 _ hm3)
    by_cases hd : sbrk_denied s ((HEADER_SIZE + n) % WORD) = true
    · rw [malloc_denied hn hinv.1.2.2 hg0 hd] at hm
      simp only [Option.some.injEq, Prod.mk.injEq] at hm
      exact absurd hm.1.symm hp
    · have hd : sbrk_denied s ((HEADER_SIZE + n) % WORD) = false := by simpa using hd
      have hbf : s.brk ≠ SBRK_FAILED := by simp only [SBRK_FAILED, WORD]; omega
      rw [malloc_grow hn hinv.1.2.2 hg0 hd hbf] at hm
      simp only [Option.some.injEq, Prod.mk.injEq] at hm
      exact Or.inr ⟨hnofit, hd, hm.1.symm, hm.2.symm⟩
  · rw [malloc_hit hn hinv.1.2.2 hg hr0] at hm
    simp only [Option.some.injEq, Prod.mk.injEq] at hm
    have hrl : first_fit s.hdr n l ∈ l := by
      rcases first_fit_mem_or_null s.hdr n l with h | h
      · exact absurd h hr0
      · exact h
    have hfit : fits s.hdr n (first_fit s.hdr n l) := by
      rcases first_fit_spec s.hdr n l with ⟨h1, _⟩ | ⟨_, _, _, _, h2, _⟩
      · exact absurd h1 hr0
      · exact h2
    exact Or.inl ⟨_, hrl, hfit, hm.1.symm, hm.2.symm⟩

/-- The call `free` does not write payload bytes. -/
theorem free_mem {fuel : Nat} {s s1 : State} {block : Nat}
    (h : free fuel s block = some s1) : s1.mem = s.mem := by
  unfold free at h
  by_cases h0 : block = NULL
  · rw [if_pos h0] at h
    simp only [Option.some.injEq] at h
    rw [← h]
  · rw [if_neg h0] at h
    cases hl : pthread_mutex_lock s with
    | none => rw [hl] at h; cases h
    | some s2 =>
      have hm2 : s2.mem = s.mem := by
        unfold pthread_mutex_lock at hl
        split_ifs at hl
        simp only [Option.some.injEq] at hl
        rw [← hl]
      rw [hl] at h
      simp only [sbrk_zero] at h
      split_ifs at h
      · cases hu : free_unlink fuel s2 with
        | none => rw [hu] at h; cases h
        | some u =>
          rw [hu] at h
          simp only [Option.some.injEq] at h
          have hum : u.mem = s2.mem := by
            unfold free_unlink at hu
            split_ifs at hu
            · simp only [Option.some.injEq] at hu; rw [← hu]
            · cases hfl : free_loop fuel s2.hdr s2.tail s2.head with
              | none => rw [hfl] at hu; cases hu
              | some r =>
                rw [hfl] at hu
                simp only [Option.some.injEq] at hu
                rw [← hu]
          rw [← h, ← hm2, ← hum]
          simp only [pthread_mutex_unlock]
          rw [sbrk_frame]
      · simp only [Option.some.injEq] at h
        rw [← h, ← hm2]
        rfl

/-- The grow path of `realloc` on a state that satisfies the invariant, for a
block `b` of the registry and `n` greater than its size, when the inner `malloc`
returns `ret` and state `s1`: what is copied, from where to where, and that
`realloc` returns `ret` after `free` of the old payload. -/
theorem realloc_grow_spec {fuel : Nat} {s s1 : State} {l : List Nat} {b n ret : Nat}
    (hinv : Inv s l) (hb : b ∈ l) (hn : (s.hdr b).size < n) (hf : l.length + 1 < fuel)
    (hm : malloc fuel s n = some (ret, s1)) (hret : ret ≠ NULL) :
    header_of (payload b) = b ∧ payload b = b + HEADER_SIZE ∧
    (s1.hdr b).size = (s.hdr b).size ∧
    n ≤ (s1.hdr (header_of ret)).size ∧ header_of ret ≠ b ∧
    ret = header_of ret + HEADER_SIZE ∧ payload (header_of ret) = ret ∧
    (b + HEADER_SIZE + (s.hdr b).size ≤ header_of ret ∨
      header_of ret + HEADER_SIZE + (s1.hdr (header_of ret)).size ≤ b) ∧
    s1.mem = s.mem ∧
    (∃ l1, Registry s1 l1 ∧ (l1 = l ∨ l1 = l ++ [header_of ret]) ∧ header_of ret ∈ l1) ∧
    ∃ s3, free fuel { s1 with mem := memcpy s1.mem ret (payload b) (s1.hdr b).size }
        (payload b) = some s3 ∧
      realloc fuel s (payload b) n = some (ret, s3) ∧
      s3.mem = memcpy s.mem ret (payload b) (s.hdr b).size := by
  have hn0 : n ≠ 0 := by omega
  have hbb := inv_block_bounds hinv hb
  have hw : b + HEADER_SIZE < WORD := by simp only [HEADER_SIZE, WORD] at *; omega
  have hhb : header_of (payload b) = b := header_of_payload hw
  obtain ⟨hb0, hb63, hbpos⟩ := inv_brk hinv
  -- the facts about the block that `malloc` has returned
  have key : (s1.hdr b).size = (s.hdr b).size ∧
      n ≤ (s1.hdr (header_of ret)).size ∧ header_of ret ≠ b ∧
      ret = header_of ret + HEADER_SIZE ∧ payload (header_of ret) = ret ∧
      (b + HEADER_SIZE + (s.hdr b).size ≤ header_of ret ∨
        header_of ret + HEADER_SIZE + (s1.hdr (header_of ret)).size ≤ b) ∧
      s1.mem = s.mem ∧
      ∃ l1, Registry s1 l1 ∧ (l1 = l ∨ l1 = l ++ [header_of ret]) ∧ header_of ret ∈ l1 := by
    rcases malloc_success_cases hinv hn0 (by omega) hm hret with
      ⟨r, hrl, hfit, hp, hs1⟩ | ⟨_, hd, hp, hs1⟩
    · have hrb := inv_block_bounds hinv hrl
      have hwr : r + HEADER_SIZE < WORD := by simp only [HEADER_SIZE, WORD] at *; omega
      have hh : header_of ret = r := by rw [hp]; exact header_of_payload hwr
      have hne : r ≠ b := by
        intro e
        have := hfit.2
        rw [e] at this
        omega
      have e_hdr : s1.hdr = set_is_free s.hdr r 0 := by rw [hs1]
      have hszr : (s1.hdr r).size = (s.hdr r).size := by rw [e_hdr]; simp [set_is_free]
      have hinv1 := inv_set_is_free hinv r 0
      rw [← hs1] at hinv1
      refine ⟨?_, ?_, by rw [hh]; exact hne, by rw [hh, hp]; exact payload_eq hwr,
        by rw [hh]; exact hp.symm, ?_, by rw [hs1], l, hinv1.1, Or.inl rfl, by rw [hh]; exact hrl⟩
      · rw [e_hdr]; simp [set_is_free, Ne.symm hne]
      · rw [hh, hszr]; exact hfit.2
      · rw [hh, hszr]
        rcases contig_disjoint l _ _ hinv.2.1 b hb r hrl (Ne.symm hne) with h | h
        · exact Or.inl h
        · exact Or.inr h
    · have hwB : s.brk + HEADER_SIZE < WORD := by simp only [HEADER_SIZE, WORD]; omega
      have hh : header_of ret = s.brk := by rw [hp]; exact header_of_payload hwB
      obtain ⟨⟨hc, htl, hlk⟩, hcg, hbase, hlim, hlim2⟩ := hinv
      have hnd : l.Nodup := contig_nodup l _ _ hcg
      have hBl : s.brk ∉ l := contig_not_mem_end hcg
      have hB0 : s.brk ≠ NULL := by simp only [NULL]; omega
      have hne : s.brk ≠ b := fun e => hBl (e ▸ hb)
      have e_hdr : s1.hdr = appended s.hdr s.tail s.brk n := by rw [hs1]
      have e_head : s1.head = if s.head = NULL then s.brk else s.head := by rw [hs1]
      have e_tail : s1.tail = s.brk := by rw [hs1]
      have e_lock : s1.lock = s.lock := by rw [hs1]
      refine ⟨?_, ?_, by rw [hh]; exact hne, by rw [hh, hp]; exact payload_eq hwB,
        by rw [hh]; exact hp.symm, Or.inl (by rw [hh]; exact hbb.2.1), by rw [hs1],
        l ++ [s.brk], ⟨?_, ?_, e_lock.trans hlk⟩, Or.inr (by rw [hh]), by rw [hh]; simp⟩
      · rw [e_hdr]; exact (appended_frame s.hdr s.tail s.brk n (Ne.symm hne)).1
      · rw [hh, e_hdr, (appended_new s.hdr s.tail s.brk n).1]
      · rw [e_hdr, e_head]; exact chain_appended n hc htl hnd hBl hB0
      · rw [e_tail, List.getLastD_concat]
  obtain ⟨k1, k2, k3, k4, k5, k6, k7, l1, hreg, hl1, hmem1⟩ := key
  refine ⟨hhb, payload_eq hw, k1, k2, k3, k4, k5, k6, k7, ⟨l1, hreg, hl1, hmem1⟩, ?_⟩
  have hreg2 : Registry { s1 with mem := memcpy s1.mem ret (payload b) (s1.hdr b).size } l1 :=
    hreg
  have hlen : l1.length < fuel := by
    rcases hl1 with rfl | rfl
    · omega
    · simp; omega
  obtain ⟨s3, hfree⟩ := free_total (payload b) hreg2 hlen
  refine ⟨s3, hfree, ?_, ?_⟩
  · unfold realloc
    rw [if_neg (by simp [payload_ne_null hw, hn0])]
    simp only [hhb]
    rw [if_neg (by omega), hm]
    simp only [hret, ne_eq, not_false_eq_true, if_true, hfree]
  · rw [free_mem hfree]
    simp only [k1, k7]

/-- The copy in the grow path of `realloc`, on a state that satisfies the
invariant: the number of bytes copied is the old size of the block, smaller than
`n` and not larger than the size recorded for the destination; the destination
block is another block, and the two byte ranges do not overlap. -/
theorem realloc_copy_spec (fuel : Nat) (s s1 : State) (l : List Nat) (b n ret : Nat)
    (hinv : Inv s l) (hb : b ∈ l) (hn : (s.hdr b).size < n) (hf : l.length + 1 < fuel)
    (hm : malloc fuel s n = some (ret, s1)) (hret : ret ≠ NULL) :
    (s1.hdr (header_of (payload b))).size = (s.hdr b).size ∧
    (s1.hdr (header_of (payload b))).size < n ∧
    n ≤ (s1.hdr (header_of ret)).size ∧
    header_of ret ≠ header_of (payload b) ∧ ret ≠ payload b ∧
    payload b + (s1.hdr (header_of (payload b))).size ≤
      payload b + (s.hdr (header_of (payload b))).size ∧
    ret + (s1.hdr (header_of (payload b))).size ≤ ret + (s1.hdr (header_of ret)).size ∧
    (payload b + (s1.hdr (header_of (payload b))).size ≤ ret ∨
      ret + (s1.hdr (header_of (payload b))).size ≤ payload b) ∧
    ∃ s3, realloc fuel s (payload b) n = some (ret, s3) ∧
      s3.mem = memcpy s.mem ret (payload b) (s1.hdr (header_of (payload b))).size := by
  obtain ⟨h1, h2, h3, h4, h5, h6, h7, h8, _, _, s3, _, h10, h11⟩ :=
    realloc_grow_spec hinv hb hn hf hm hret
  rw [h1, h3]
  refine ⟨rfl, hn, h4, h5, ?_, Nat.le_refl _, by omega, ?_, s3, h10, h11⟩
  · intro e
    apply h5
    rw [e]; exact h1
  · rw [h2, h6]
    rcases h8 with h | h
    · left; simp only [HEADER_SIZE] at *; omega
    · right; simp only [HEADER_SIZE] at *; omega

/-- C11 (counterexample): in the state `tight_block` the pointer `4120` is live
with recorded size `8`, and `16 > 8` is a sane size, but the platform has no
room: `realloc(4120, 16)` returns `NULL`, and afterwards the old block is still
the registry's block at `4096` with flag `0`. -/
theorem realloc_grow_denied_keeps_block :
    Fresh tight ∧ ptrOf (malloc 5 tight 8) = some 4120 ∧ Inv tight_block [4096] ∧
    (tight_block.hdr (header_of 4120)).is_free = 0 ∧
    (tight_block.hdr (header_of 4120)).size = 8 ∧ 8 < 16 ∧ Sane 16 ∧
    ptrOf (realloc 5 tight_block 4120 16) = some NULL ∧
    Inv (stateOf (realloc 5 tight_block 4120 16)) [4096] ∧
    ((stateOf (realloc 5 tight_block 4120 16)).hdr 4096).is_free = 0 := by
  decide

/-- The grow path of `realloc` for a sane size, on a state that satisfies the
invariant: `realloc` returns the pointer of the inner `malloc`, the old bytes are
at the new address, and the old block is flagged free or gone from the
registry. -/
theorem realloc_grow_moves_spec (fuel : Nat) (s s1 : State) (l : List Nat) (b n ret : Nat)
    (hinv : Inv s l) (hb : b ∈ l) (hn : (s.hdr b).size < n) (hsane : Sane n)
    (hf : l.length + 1 < fuel) (hm : malloc fuel s n = some (ret, s1)) (hret : ret ≠ NULL) :
    ∃ s3 l3, realloc fuel s (payload b) n = some (ret, s3) ∧ ret ≠ payload b ∧
      (∀ i, i < (s.hdr b).size → s3.mem (ret + i) = s.mem (payload b + i)) ∧
      Inv s3 l3 ∧ ((b ∈ l3 ∧ (s3.hdr b).is_free = 1) ∨ b ∉ l3) ∧
      header_of ret ∈ l3 ∧ (s3.hdr (header_of ret)).is_free = 0 := by
  obtain ⟨h1, h2, h3, h4, h5, h6, h7, h8, h9, _, s3, hfree, hre, hmem⟩ :=
    realloc_grow_spec hinv hb hn hf hm hret
  have hne : ret ≠ payload b := by
    intro e
    apply h5
    rw [e]; exact h1
  have hbytes : ∀ i, i < (s.hdr b).size → s3.mem (ret + i) = s.mem (payload b + i) := by
    intro i hi
    rw [hmem]
    simp only [memcpy]
    rw [if_pos ⟨Nat.le_add_right _ _, by omega⟩, Nat.add_sub_cancel_left]
  rcases malloc_spec hinv (by omega) hsane (by omega) hm with ⟨h, _⟩ | ⟨_, l1, hinv1, hl1, hr1, _, hfl, _, _, _, _, _, _⟩
  · exact absurd h hret
  have hbl1 : b ∈ l1 := by
    rcases hl1 with rfl | rfl
    · exact hb
    · exact List.mem_append_left _ hb
  have hlen : l1.length < fuel := by
    rcases hl1 with rfl | rfl
    · omega
    · simp; omega
  have hinv2 : Inv { s1 with mem := memcpy s1.mem ret (payload b) (s1.hdr b).size } l1 :=
    inv_set_mem hinv1 _
  by_cases htop : ptr_add (payload b) (s1.hdr b).size = s1.brk
  · obtain ⟨t, pre, ht1, ht2, ht3, _, _, ht4, _, _, ht5, _⟩ :=
      free_top_spec fuel _ l1 b hinv2 hbl1 htop hlen
    rw [hfree] at ht1
    simp only [Option.some.injEq] at ht1
    subst ht1
    have hrpre : header_of ret ∈ pre := by
      rw [ht2] at hr1
      rcases List.mem_append.1 hr1 with h | h
      · exact h
      · simp only [List.mem_singleton] at h
        exact absurd h h5
    exact ⟨s3, pre, hre, hne, hbytes, ht4, Or.inr ht3, hrpre, by rw [(ht5 _).2]; exact hfl⟩
  · obtain ⟨t, ht1, ht2, _⟩ := free_interior_spec fuel _ l1 b hinv2 hbl1 htop
    rw [hfree] at ht1
    simp only [Option.some.injEq] at ht1
    subst ht1
    refine ⟨s3, l1, hre, hne, hbytes, ?_, Or.inl ⟨hbl1, ?_⟩, hr1, ?_⟩
    · rw [ht2]; exact inv_set_is_free hinv2 b 1
    · rw [ht2]; simp [set_is_free]
    · rw [ht2]; simp only [set_is_free, if_neg h5]; exact hfl

/-! ## The invariant, spelled out -/

/-- Under the invariant the payload of a registry block ends at the break
exactly when the block is the tail. -/
theorem inv_top_iff_tail {s : State} {l : List Nat} (hinv : Inv s l) {b : Nat} (hb : b ∈ l) :
    ptr_add (payload b) (s.hdr b).size = s.brk ↔ s.tail = b := by
  have hbb := inv_block_bounds hinv hb
  have hlt : b + HEADER_SIZE < WORD := by simp only [HEADER_SIZE, WORD] at *; omega
  have hpa : ptr_add (payload b) (s.hdr b).size = b + HEADER_SIZE + (s.hdr b).size := by
    rw [payload_eq hlt]
    unfold ptr_add
    apply Nat.mod_eq_of_lt
    simp only [HEADER_SIZE, WORD] at *; omega
  rw [hpa]
  constructor
  · intro h
    obtain ⟨pre, rfl⟩ := inv_top_is_last hinv hb h
    rw [hinv.1.2.1, List.getLastD_concat]
  · intro h
    rcases list_snoc_cases l with rfl | ⟨pre, t, rfl⟩
    · simp at hb
    · have ht := hinv.1.2.1
      rw [List.getLastD_concat] at ht
      have hc := hinv.2.1
      rw [contig_snoc] at hc
      rw [← h, ht]; exact hc.2.symm

/-- In a chain laid out in address order each header is followed by its payload
and then by the header it links to. -/
theorem chain_contig_succ {hdr : Nat → header_t} {a c : Nat} {post : List Nat} :
    ∀ (pre : List Nat) (p base e : Nat), Chain hdr p (pre ++ a :: c :: post) →
      Contig hdr base (pre ++ a :: c :: post) e →
      c = a + HEADER_SIZE + (hdr a).size ∧ (hdr a).next = c
  | [], _, _, _, hc, hcg => by
    have h1 : c = _ := hcg.2.1
    have h2 : a = _ := hcg.1
    have h3 : (hdr a).next = c := hc.2.2.1
    exact ⟨by rw [h1, h2], h3⟩
  | x :: pre, _, _, _, hc, hcg => chain_contig_succ pre _ _ _ hc.2.2 hcg.2

/-- Under the invariant the chain is laid out in address order: the first header
is at the region base and is `head`, each header is followed by its payload and
then by the header it links to, the payload of the last header ends at the break
and that header is `tail`; without blocks the break is the base. -/
theorem inv_layout {s : State} {l : List Nat} (hinv : Inv s l) :
    (l = [] → s.brk = s.base ∧ s.head = NULL ∧ s.tail = NULL) ∧
    (∀ a rest, l = a :: rest → a = s.base ∧ s.head = a) ∧
    (∀ pre a c post, l = pre ++ a :: c :: post →
      c = a + HEADER_SIZE + (s.hdr a).size ∧ (s.hdr a).next = c) ∧
    (∀ pre t, l = pre ++ [t] →
      t + HEADER_SIZE + (s.hdr t).size = s.brk ∧ s.tail = t ∧ (s.hdr t).next = NULL) := by
  obtain ⟨⟨hc, htl, _⟩, hcg, _⟩ := hinv
  refine ⟨?_, ?_, ?_, ?_⟩
  · rintro rfl
    exact ⟨hcg.symm, hc, htl⟩
  · rintro a rest rfl
    exact ⟨hcg.1, hc.1⟩
  · rintro pre a c post rfl
    exact chain_contig_succ pre _ _ _ hc hcg
  · rintro pre t rfl
    rw [contig_snoc] at hcg
    rw [List.getLastD_concat] at htl
    exact ⟨hcg.2.symm, htl, (chain_last_null pre _ hc).1⟩

/-- Under the invariant the registry is well formed: `head` is `NULL` exactly
when there is no block, and so is `tail`; the chain has no header twice. -/
theorem inv_registry_wf {s : State} {l : List Nat} (hinv : Inv s l) :
    (s.head = NULL ↔ l = []) ∧ (s.tail = NULL ↔ l = []) ∧ l.Nodup ∧
    Chain s.hdr s.head l ∧ ∀ a ∈ l, a ≠ NULL := by
  have hnd := inv_nodup hinv
  obtain ⟨⟨hc, htl, _⟩, _⟩ := hinv
  have hne := chain_ne_null l _ hc
  refine ⟨?_, ?_, hnd, hc, hne⟩
  · cases l with
    | nil => exact ⟨fun _ => rfl, fun _ => hc⟩
    | cons a rest =>
      constructor
      · intro h
        exact absurd (hc.1.symm.trans h) hc.2.1
      · intro h; cases h
  · rcases list_snoc_cases l with rfl | ⟨pre, t, rfl⟩
    · exact ⟨fun _ => rfl, fun _ => htl⟩
    · rw [List.getLastD_concat] at htl
      constructor
      · intro h
        exact absurd (htl.symm.trans h) (hne t (by simp))
      · intro h
        simp at h

/-- Under the invariant the bytes of two different registry blocks do not
overlap: the header and payload of one end before the header of the other
starts, so payloads are disjoint from each other and from every header. -/
theorem inv_blocks_disjoint {s : State} {l : List Nat} (hinv : Inv s l) {a b : Nat}
    (ha : a ∈ l) (hb : b ∈ l) (hab : a ≠ b) :
    payload a = a + HEADER_SIZE ∧ payload b = b + HEADER_SIZE ∧
    (payload a + (s.hdr a).size ≤ b ∨ payload b + (s.hdr b).size ≤ a) := by
  have h1 := inv_block_bounds hinv ha
  have h2 := inv_block_bounds hinv hb
  have hwa : a + HEADER_SIZE < WORD := by simp only [HEADER_SIZE, WORD] at *; omega
  have hwb : b + HEADER_SIZE < WORD := by simp only [HEADER_SIZE, WORD] at *; omega
  rw [payload_eq hwa, payload_eq hwb]
  exact ⟨rfl, rfl, contig_disjoint l _ _ hinv.2.1 a ha b hb hab⟩

/-! ## What the wrapped `total_size` does to the registry -/

/-- The scan over the registry of `wrapped_twice` for `16` bytes never ends. -/
theorem scan_of_cycle_never_ends :
    ∀ fuel, get_free_block_loop fuel wrapped_twice.hdr 4096 16 = none
  | 0 => rfl
  | fuel + 1 => by
    have h1 : (wrapped_twice.hdr 4096).is_free = 0 := by decide
    have h2 : (wrapped_twice.hdr 4096).next = 4096 := by decide
    unfold get_free_block_loop
    rw [if_neg (by decide), if_neg (by rw [h1]; simp), h2]
    exact scan_of_cycle_never_ends fuel

/-- C15 (failing input): after `malloc(8)` and `malloc(2^64 - 24)` on the fresh
allocator `init`, the live block at `4096` (payload `4120`, size `8`) has its
payload end at the break `4128`, but `tail` is the header at `4128` that the
second call wrote at the break.  The call `free(4120)` takes the shrink path: it
unlinks the tail `4128`, not the released header `4096`, and retracts the break
to `4096`; the released block is still the registry's `head` and `tail`, with
flag `0`, above the break. -/
theorem shrink_path_unlinks_other_block :
    Fresh init ∧ ptrOf (malloc 5 init 8) = some 4120 ∧
    ptrOf (malloc 5 one_block (WORD - 24)) = some 4152 ∧
    (wrapped_second.hdr (header_of 4120)).is_free = 0 ∧
    ptr_add 4120 (wrapped_second.hdr (header_of 4120)).size = wrapped_second.brk ∧
    wrapped_second.tail = 4128 ∧ header_of 4120 ≠ wrapped_second.tail ∧
    (free 5 wrapped_second 4120).isSome = true ∧
    wrapped_second_freed.head = 4096 ∧ wrapped_second_freed.tail = 4096 ∧
    (wrapped_second_freed.hdr 4096).is_free = 0 ∧
    (wrapped_second_freed.hdr 4096).next = NULL ∧
    wrapped_second_freed.brk = 4096 := by
  decide

/-- C16 (failing input): after `malloc(2^64 - 24)` and `malloc(8)` on the fresh
allocator `init`, the second header was written over the first at `4096`; the
block at `4096` links to itself, so its successor is not at
`4096 + sizeof(header_t) + size`. -/
theorem layout_broken_after_wrap :
    Fresh init ∧ ptrOf (malloc 5 init (WORD - 24)) = some 4120 ∧
    ptrOf (malloc 5 wrapped 8) = some 4120 ∧
    wrapped_twice.head = 4096 ∧ (wrapped_twice.hdr 4096).size = 8 ∧
    (wrapped_twice.hdr 4096).next = 4096 ∧
    (wrapped_twice.hdr 4096).next ≠ 4096 + HEADER_SIZE + (wrapped_twice.hdr 4096).size := by
  decide

/-- C17 (failing input): after `malloc(2^64 - 24)` and `malloc(8)` on the fresh
allocator `init`, `tail` is `4096` and its link is not `NULL` but `4096` itself:
the chain from `head` is a cycle, and the scan of `malloc(16)` does not end with
any fuel. -/
theorem chain_cyclic_after_wrap :
    Fresh init ∧ ptrOf (malloc 5 init (WORD - 24)) = some 4120 ∧
    ptrOf (malloc 5 wrapped 8) = some 4120 ∧
    wrapped_twice.head = 4096 ∧ wrapped_twice.tail = 4096 ∧
    (wrapped_twice.hdr wrapped_twice.tail).next = wrapped_twice.tail ∧
    (wrapped_twice.hdr wrapped_twice.tail).next ≠ NULL ∧
    (∀ fuel, get_free_block fuel wrapped_twice 16 = none) ∧
    (∀ fuel, malloc fuel wrapped_twice 16 = none) := by
  refine ⟨by decide, by decide, by decide, by decide, by decide, by decide, by decide, ?_, ?_⟩
  · intro fuel
    exact scan_of_cycle_never_ends fuel
  · intro fuel
    have h : get_free_block fuel { wrapped_twice with lock := true } 16 = none :=
      scan_of_cycle_never_ends fuel
    have hl : wrapped_twice.lock = false := by decide
    unfold malloc
    rw [if_neg (by decide)]
    simp only [pthread_mutex_lock, hl, Bool.false_eq_true, if_false, h]

/-- C18 (failing input): on the fresh allocator `init`, `malloc(2^64 - 24)`
returns `4120` and leaves that block in use (flag `0`); the next call
`malloc(8)` returns `4120` again: two live allocations at the same address. -/
theorem same_payload_handed_out_twice :
    Fresh init ∧ ptrOf (malloc 5 init (WORD - 24)) = some 4120 ∧
    (wrapped.hdr (header_of 4120)).is_free = 0 ∧ wrapped.head = header_of 4120 ∧
    get_free_block 5 wrapped 8 = some NULL ∧
    ptrOf (malloc 5 wrapped 8) = some 4120 ∧
    (wrapped_twice.hdr (header_of 4120)).is_free = 0 := by
  decide

/-! ## The claims about reachable states -/

/-- On a state that satisfies the invariant the payload pointers of registry
blocks are different for different blocks. -/
theorem inv_payload_inj {s : State} {l : List Nat} (hinv : Inv s l) {a : Nat} (ha : a ∈ l)
    {b : Nat} (hb : b + HEADER_SIZE < WORD) (h : payload a = payload b) : a = b := by
  have h1 := inv_block_bounds hinv ha
  have hwa : a + HEADER_SIZE < WORD := by simp only [HEADER_SIZE, WORD] at *; omega
  rw [payload_eq hwa, payload_eq hb] at h
  omega

/-- C3 (amended): for a state reached from a fresh allocator by calls with sane
sizes on `NULL` or live pointers, with registry chain `l`, and every word
`n > 0`: if `malloc(n)` returns a pointer `p` that is not `NULL`, then `p`'s
header is in the registry `l1` of the state after it, `free(p)` returns, the
`malloc(n)` that follows returns the same address `p`, and the flag of `p`'s
block is `0` afterwards.  When `p`'s block is not the top of the region (its
payload does not end at the break), `free` leaves the registry `l1` as it is and
sets the flag to `1`, and the second `malloc` is a pure reuse: its scan returns
`p`'s header and the break does not move.  When the block is the top of the
region, it is the last header of `l1`, `free` unlinks it (the registry
afterwards is `l1` without it) and sets the break to its header, the scan of
the second `malloc` finds nothing, and the block is created again at the break,
as the new tail with size `n`. -/
theorem malloc_free_malloc_same_address (fuel : Nat) (s : State) (l : List Nat) (n p : Nat)
    (s1 : State) (hreach : Reachable s) (hc : Chain s.hdr s.head l) (hn : 0 < n)
    (hnw : n < WORD) (hf : l.length < fuel)
    (hm : malloc fuel s n = some (p, s1)) (hp : p ≠ NULL) :
    ∃ l1 s2 s3, Registry s1 l1 ∧ header_of p ∈ l1 ∧ free fuel s1 p = some s2 ∧
      malloc fuel s2 n = some (p, s3) ∧ (s3.hdr (header_of p)).is_free = 0 ∧
      (ptr_add p (s1.hdr (header_of p)).size ≠ s1.brk →
        Registry s2 l1 ∧ (s2.hdr (header_of p)).is_free = 1 ∧
        get_free_block fuel s2 n = some (header_of p) ∧ header_of p ≠ NULL ∧
        s2.brk = s1.brk ∧ s3.brk = s1.brk) ∧
      (ptr_add p (s1.hdr (header_of p)).size = s1.brk →
        ∃ pre, l1 = pre ++ [header_of p] ∧ header_of p ∉ pre ∧ Registry s2 pre ∧
          s2.brk = header_of p ∧ get_free_block fuel s2 n = some NULL ∧
          payload s2.brk = p ∧ s3.tail = header_of p ∧
          (s3.hdr (header_of p)).size = n) := by
  obtain ⟨l2, hinv⟩ := reachable_inv hreach
  have e : l2 = l := chain_unique l2 l _ hinv.1.1 hc
  subst e
  exact malloc_free_malloc_spec hinv hn hnw hf hm hp

/-- C11 (amended): for a state reached from a fresh allocator by calls with sane
sizes on `NULL` or live pointers, with registry chain `l`, a block `b` of the
registry, and every sane `n` greater than the size recorded for `b`: if the
inner `malloc(n)` returns a pointer `ret` that is not `NULL`, then
`realloc(payload b, n)` returns `ret`, which is not `b`'s payload; the first
`size` bytes at `ret` are the first `size` bytes of the old payload; afterwards
the old payload is not a live pointer any more (in the registry `l3` of the new
state `b` has its flag set to `1` or does not occur), and `ret` is a live
pointer. -/
theorem realloc_grow_moves (fuel : Nat) (s s1 : State) (l : List Nat) (b n ret : Nat)
    (hreach : Reachable s) (hc : Chain s.hdr s.head l) (hb : b ∈ l)
    (hn : (s.hdr b).size < n) (hsane : Sane n) (hf : l.length + 1 < fuel)
    (hm : malloc fuel s n = some (ret, s1)) (hret : ret ≠ NULL) :
    ∃ s3 l3, realloc fuel s (payload b) n = some (ret, s3) ∧ ret ≠ payload b ∧
      (∀ i, i < (s.hdr b).size → s3.mem (ret + i) = s.mem (payload b + i)) ∧
      Inv s3 l3 ∧ ((b ∈ l3 ∧ (s3.hdr b).is_free = 1) ∨ b ∉ l3) ∧
      ¬ Live s3 (payload b) ∧ Live s3 ret := by
  obtain ⟨l2, hinv⟩ := reachable_inv hreach
  have e : l2 = l := chain_unique l2 l _ hinv.1.1 hc
  subst e
  obtain ⟨s3, l3, h1, h2, h3, h4, h5, h6, h7⟩ :=
    realloc_grow_moves_spec fuel s s1 l2 b n ret hinv hb hn hsane hf hm hret
  have hbb := inv_block_bounds hinv hb
  have hw : b + HEADER_SIZE < WORD := by simp only [HEADER_SIZE, WORD] at *; omega
  obtain ⟨_, _, _, _, _, _, hpr, _⟩ := realloc_grow_spec hinv hb hn hf hm hret
  refine ⟨s3, l3, h1, h2, h3, h4, h5, ?_, ⟨l3, header_of ret, h4.1.1, h6, hpr.symm, h7⟩⟩
  rintro ⟨l4, b2, hc4, hb4, hp4, hfl4⟩
  have e4 : l3 = l4 := chain_unique l3 l4 _ h4.1.1 hc4
  subst e4
  have hbe : b2 = b := inv_payload_inj h4 hb4 hw hp4.symm
  subst hbe
  rcases h5 with ⟨_, h⟩ | h
  · rw [h] at hfl4; cases hfl4
  · exact h hb4

/-- C5 (failing input): after `malloc(8)`, `malloc(16)` and `malloc(2^64 - 24)`
on the fresh allocator `init`, the block at `4128` (payload `4152`, size `16`)
is in the registry behind `4096`, in use, and its payload ends at the break
`4168`; the tail is the header `4168` that the third call wrote at the break.
The call `free(4152)` lowers the break by `sizeof(header_t) + 16` to `4128`,
but it does not remove the block: the header it unlinks is `4168`, the link of
the predecessor `4096` still is `4128`, `tail` is the released block itself and
its flag is `0`. -/
theorem free_top_unlinks_tail_not_block :
    Fresh init ∧ ptrOf (malloc 5 init 8) = some 4120 ∧
    ptrOf (malloc 5 one_block 16) = some 4152 ∧
    ptrOf (malloc 5 two_blocks (WORD - 24)) = some 4192 ∧
    wrapped_third.head = 4096 ∧ (wrapped_third.hdr 4096).next = header_of 4152 ∧
    (wrapped_third.hdr (header_of 4152)).is_free = 0 ∧
    (wrapped_third.hdr (header_of 4152)).size = 16 ∧
    ptr_add 4152 (wrapped_third.hdr (header_of 4152)).size = wrapped_third.brk ∧
    wrapped_third.tail = 4168 ∧
    (free 5 wrapped_third 4152).isSome = true ∧
    wrapped_third_freed.brk + (HEADER_SIZE + 16) = wrapped_third.brk ∧
    wrapped_third_freed.head = 4096 ∧
    (wrapped_third_freed.hdr 4096).next = header_of 4152 ∧
    wrapped_third_freed.tail = header_of 4152 ∧ wrapped_third_freed.tail ≠ 4096 ∧
    (wrapped_third_freed.hdr (header_of 4152)).is_free = 0 := by
  decide

/-- C20 (failing input): after `malloc(8)` and `malloc(2^64 - 24)` on the fresh
allocator `init`, the pointer `4152` is live with recorded size `2^64 - 24`.
In `realloc(4152, 2^64 - 8)` the new size is greater than the recorded size and
the inner `malloc` returns `4152`, not `NULL`: it has written the new header
over the old one at `4128`.  Source and destination are the same block, and the
size read for the copy is the new size `2^64 - 8`, which is not smaller than
the new size. -/
theorem realloc_copies_block_onto_itself :
    Fresh init ∧ ptrOf (malloc 5 init 8) = some 4120 ∧
    ptrOf (malloc 5 one_block (WORD - 24)) = some 4152 ∧
    wrapped_second.head = 4096 ∧ (wrapped_second.hdr 4096).next = header_of 4152 ∧
    (wrapped_second.hdr (header_of 4152)).is_free = 0 ∧
    (wrapped_second.hdr (header_of 4152)).size = WORD - 24 ∧ WORD - 24 < WORD - 8 ∧
    ptrOf (malloc 5 wrapped_second (WORD - 8)) = some 4152 ∧ 4152 ≠ NULL ∧
    (wrapped_regrown.hdr (header_of 4152)).size = WORD - 8 ∧
    ¬ ((wrapped_regrown.hdr (header_of 4152)).size < WORD - 8) ∧
    ptrOf (realloc 5 wrapped_second 4152 (WORD - 8)) = some 4152 := by
  decide

/-- After `malloc(8)`, `malloc(8)`, `free(4120)`, `free(4152)` and
`malloc(2^64 - 24)` on `init`, the call `malloc(8)` reuses the block at `4096`,
whose payload ends at the break; `free(4120)` then unlinks the header `4128`
and leaves the block at `4096` in the registry with flag `0`. -/
theorem reuse_after_wrap_unlinks_other_block :
    Fresh init ∧ hole_wrapped.head = 4096 ∧ hole_wrapped.tail = 4128 ∧
    ptrOf (malloc 5 hole_wrapped 8) = some 4120 ∧
    ptr_add 4120 (hole_reused.hdr (header_of 4120)).size = hole_reused.brk ∧
    (free 5 hole_reused 4120).isSome = true ∧
    (freedState (free 5 hole_reused 4120)).head = 4096 ∧
    (freedState (free 5 hole_reused 4120)).tail = 4096 ∧
    ((freedState (free 5 hole_reused 4120)).hdr 4096).is_free = 0 := by
  decide

/-- After `malloc(100)`, `malloc(8)`, `free(4120)` and `malloc(2^64 - 24)` on
`init`, the call `realloc(4244, 50)` returns `4120`, and `free` of the old
payload unlinks the header `4252`: the old block at `4220` is still in the
registry, as tail, with flag `0`. -/
theorem realloc_after_wrap_keeps_old_block :
    Fresh init ∧ (gap_wrapped.hdr (header_of 4244)).is_free = 0 ∧
    (gap_wrapped.hdr (header_of 4244)).size = 8 ∧ Sane 50 ∧
    ptrOf (realloc 5 gap_wrapped 4244 50) = some 4120 ∧
    (stateOf (realloc 5 gap_wrapped 4244 50)).tail = header_of 4244 ∧
    ((stateOf (realloc 5 gap_wrapped 4244 50)).hdr 4096).next = header_of 4244 ∧
    ((stateOf (realloc 5 gap_wrapped 4244 50)).hdr (header_of 4244)).is_free = 0 := by
  decide

/-- The state `one_block` is reachable. -/
theorem reachable_one_block : Reachable one_block :=
  Reachable.malloc 5 init 8 4120 one_block (Reachable.fresh init (by decide)) (by decide) rfl

/-- The state `two_blocks` is reachable. -/
theorem reachable_two_blocks : Reachable two_blocks :=
  Reachable.malloc 5 one_block 16 4152 two_blocks reachable_one_block (by decide) rfl

/-- The state `first_freed` is reachable. -/
theorem reachable_first_freed : Reachable first_freed :=
  Reachable.free 5 two_blocks 4120 first_freed reachable_two_blocks
    (Or.inr ⟨[4096, 4128], 4096, by decide, by decide, by decide, by decide⟩) rfl

/-- The sequence `malloc(8)`, `free`, `malloc(8)` on `first_freed`, where the
scan finds the free block at `4096`, which is not the top of the region. -/
theorem malloc_free_malloc_same_address_witness :
    Reachable first_freed ∧ Chain first_freed.hdr first_freed.head [4096, 4128] ∧
    malloc 5 first_freed 8 = some (4120, stateOf (malloc 5 first_freed 8)) ∧
    ∃ l1 s2 s3, Registry (stateOf (malloc 5 first_freed 8)) l1 ∧ header_of 4120 ∈ l1 ∧
      free 5 (stateOf (malloc 5 first_freed 8)) 4120 = some s2 ∧
      malloc 5 s2 8 = some (4120, s3) ∧ (s3.hdr (header_of 4120)).is_free = 0 ∧
      (ptr_add 4120 ((stateOf (malloc 5 first_freed 8)).hdr (header_of 4120)).size ≠
          (stateOf (malloc 5 first_freed 8)).brk →
        Registry s2 l1 ∧ (s2.hdr (header_of 4120)).is_free = 1 ∧
        get_free_block 5 s2 8 = some (header_of 4120) ∧ header_of 4120 ≠ NULL ∧
        s2.brk = (stateOf (malloc 5 first_freed 8)).brk ∧
        s3.brk = (stateOf (malloc 5 first_freed 8)).brk) ∧
      (ptr_add 4120 ((stateOf (malloc 5 first_freed 8)).hdr (header_of 4120)).size =
          (stateOf (malloc 5 first_freed 8)).brk →
        ∃ pre, l1 = pre ++ [header_of 4120] ∧ header_of 4120 ∉ pre ∧ Registry s2 pre ∧
          s2.brk = header_of 4120 ∧ get_free_block 5 s2 8 = some NULL ∧
          payload s2.brk = 4120 ∧ s3.tail = header_of 4120 ∧
          (s3.hdr (header_of 4120)).size = 8) :=
  ⟨reachable_first_freed, by decide, rfl,
    malloc_free_malloc_same_address 5 first_freed [4096, 4128] 8 4120
      (stateOf (malloc 5 first_freed 8)) reachable_first_freed (by decide) (by decide)
      (by decide) (by decide) rfl (by decide)⟩

/-- The call `realloc(4120, 16)` on `one_block`: the inner `malloc` grows the
region and returns `4152`. -/
theorem realloc_grow_moves_witness :
    Reachable one_block ∧ Chain one_block.hdr one_block.head [4096] ∧ 4096 ∈ [4096] ∧
    (one_block.hdr 4096).size < 16 ∧ Sane 16 ∧
    malloc 5 one_block 16 = some (4152, two_blocks) ∧
    ∃ s3 l3, realloc 5 one_block (payload 4096) 16 = some (4152, s3) ∧ 4152 ≠ payload 4096 ∧
      (∀ i, i < (one_block.hdr 4096).size →
        s3.mem (4152 + i) = one_block.mem (payload 4096 + i)) ∧
      Inv s3 l3 ∧ ((4096 ∈ l3 ∧ (s3.hdr 4096).is_free = 1) ∨ 4096 ∉ l3) ∧
      ¬ Live s3 (payload 4096) ∧ Live s3 4152 :=
  ⟨reachable_one_block, by decide, by decide, by decide, by decide, rfl,
    realloc_grow_moves 5 one_block two_blocks [4096] 4096 16 4152 reachable_one_block
      (by decide) (by decide) (by decide) (by decide) (by decide) rfl (by decide)⟩

end MemAlloc
